import Mathlib

/-!
Verification of the adaptive statistical profiler core (Rust sources in
src): the nested-call stopwatch, the symbol interner, the live/finalized
sample stores, the blacklist, the event handlers of `Profiler`
(`on_call`, `on_return`, `on_c_call`, `on_c_return`), the Racing update
algorithm, and `get_statistics`.

Machine integers are modelled as `Nat`.  Counter readings are
monotonically non-decreasing by the Counter contract, so the
`ValueType - ValueType` subtractions of the Rust code agree with
truncated `Nat` subtraction on all inputs the contract admits.
`SplayMap` is modelled as an association list (first binding wins) and
`SplaySet` as a duplicate-free list; both structures are used by the
code purely through lookup / insert / remove / membership / iteration,
and no claim depends on splay-tree iteration order.  Code that can
panic (`Option::unwrap`, `Vec::first().unwrap()`) is modelled with
`Option`, `none` standing for a panic.
-/

namespace AdaptiveProfiler

/-! ### Association-list maps (model of `splay::SplayMap`) -/

/-- Lookup of the first binding of key `s`. -/
def alookup {α : Type} : List (Nat × α) → Nat → Option α
  | [], _ => none
  | (k, v) :: t, s => if k = s then some v else alookup t s

/-- Removal of the first binding of key `s` (model of `SplayMap::remove`). -/
def aremove {α : Type} : List (Nat × α) → Nat → List (Nat × α)
  | [], _ => []
  | (k, v) :: t, s => if k = s then t else (k, v) :: aremove t s

/-- Replace the first binding of key `k`, or append a new binding
(model of `SplayMap::insert`). -/
def ainsert {α : Type} : List (Nat × α) → Nat → α → List (Nat × α)
  | [], k, v => [(k, v)]
  | (k', v') :: t, k, v =>
    if k' = k then (k, v) :: t else (k', v') :: ainsert t k v

/-- The keys of a map. -/
def akeys {α : Type} (m : List (Nat × α)) : List Nat := m.map Prod.fst

/-- Insertion into a set (model of `SplaySet::insert`). -/
def binsert (l : List Nat) (s : Nat) : List Nat :=
  if s ∈ l then l else l ++ [s]

/-! ### Symbol interner (model of `string_interner::StringInterner`)

A symbol is the index of its name in the list of interned strings;
`string-interner` assigns exactly these indices (wrapped in a
`SymbolU32`) in first-sighting order. -/

/-- Index of the first occurrence of `n`. -/
def idxOf? (n : String) : List String → Option Nat
  | [] => none
  | s :: t => if s = n then some 0 else (idxOf? n t).map (· + 1)

/-- Model of `StringInterner::get_or_intern`: the (possibly extended)
interner together with the symbol of `n`. -/
def internOf (i : List String) (n : String) : List String × Nat :=
  match idxOf? n i with
  | some k => (i, k)
  | none => (i ++ [n], i.length)

/-! ### Stopwatch and samples

`Statistics` is `stopwatch.rs`'s sample type: `total` is the counter
amount spent exclusively in the function, `cumulative` the amount from
entry to final return.

Modelled from the spec: the `Stopwatch` revision used by
`src/profiler.rs` — which passes the single counter reading of each
event into `new` / `pause` / `unpause` / `stop` — is not present under
src (src/stopwatch.rs holds an older revision whose methods read the
counter themselves).  The operations below follow spec section 4.2,
whose equations also coincide with src/stopwatch.rs after replacing
each internal `counter.read()` by the supplied reading. -/

structure Statistics where
  total : Nat
  cumulative : Nat
deriving DecidableEq

structure Stopwatch where
  elapsed : Nat
  start : Nat
  last : Nat
deriving DecidableEq

/-- Modelled from the spec: `new(value)` sets `start = last = value`,
`elapsed = ZERO`. -/
def Stopwatch.new (value : Nat) : Stopwatch :=
  { elapsed := 0, start := value, last := value }

/-- Modelled from the spec: `pause(value)` adds `value - last` to
`elapsed`. -/
def Stopwatch.pause (sw : Stopwatch) (value : Nat) : Stopwatch :=
  { sw with elapsed := sw.elapsed + (value - sw.last) }

/-- Modelled from the spec: `unpause(value)` sets `last = value`. -/
def Stopwatch.unpause (sw : Stopwatch) (value : Nat) : Stopwatch :=
  { sw with last := value }

/-- Modelled from the spec: `stop(value)` returns the sample with
`cumulative = value - start` and `total = elapsed + (value - last)`. -/
def Stopwatch.stop (sw : Stopwatch) (value : Nat) : Statistics :=
  { total := sw.elapsed + (value - sw.last), cumulative := value - sw.start }

/-! ### Profiler state (src/profiler.rs)

The stack is held top-first (the head is `Vec::last`).  Counter
readings are inputs of the event handlers: the Rust handlers call
`self.counter.read()` exactly once per event and thread that one value
through, so each handler here takes the reading as a parameter. -/

structure Profiler where
  interner : List String
  blacklist : List Nat
  stack : List Stopwatch
  times : List (Nat × List Statistics)
  previous_times : List (Nat × List Statistics)
  c_enter_count : Option Nat
deriving DecidableEq

/-- Model of `Profiler::new`. -/
def Profiler.new : Profiler :=
  { interner := [], blacklist := [], stack := [], times := [],
    previous_times := [], c_enter_count := none }

/-- Model of `Profiler::add_to_blacklist`: move the symbol's live
samples (defaulting to the empty list) into the finalized store,
merging after any previous samples, and insert the symbol into the
blacklist. -/
def add_to_blacklist (p : Profiler) (symbol : Nat) : Profiler :=
  let current := (alookup p.times symbol).getD []
  let times := aremove p.times symbol
  let previous :=
    match alookup p.previous_times symbol with
    | some l => ainsert p.previous_times symbol (l ++ current)
    | none => ainsert p.previous_times symbol current
  { p with times := times, previous_times := previous,
           blacklist := binsert p.blacklist symbol }

/-- Model of `Profiler::record_statistics`: append a sample to the
symbol's live list, creating the list first when absent. -/
def record_statistics (p : Profiler) (symbol : Nat) (stats : Statistics) :
    Profiler :=
  let old := (alookup p.times symbol).getD []
  { p with times := ainsert p.times symbol (old ++ [stats]) }

/-- Model of `Profiler::on_call` (the reading `value` is what
`self.counter.read()` returned). -/
def Profiler.on_call (p : Profiler) (name : String) (value : Nat) :
    Profiler :=
  let r := internOf p.interner name
  let p := { p with interner := r.1 }
  if r.2 ∈ p.blacklist then p
  else
    let stack :=
      match p.stack with
      | [] => [Stopwatch.new value]
      | top :: rest => Stopwatch.new value :: top.pause value :: rest
    { p with stack := stack }

/-- Model of `Profiler::on_return`. -/
def Profiler.on_return (p : Profiler) (name : String) (value : Nat) :
    Profiler :=
  let r := internOf p.interner name
  let p := { p with interner := r.1 }
  if r.2 ∈ p.blacklist then p
  else
    let p :=
      match p.stack with
      | [] => p
      | sw :: rest =>
        record_statistics { p with stack := rest } r.2 (sw.stop value)
    match p.stack with
    | [] => p
    | top :: rest => { p with stack := top.unpause value :: rest }

/-- Model of `Profiler::on_c_call`. -/
def Profiler.on_c_call (p : Profiler) (name : String) (value : Nat) :
    Profiler :=
  let r := internOf p.interner name
  let p := { p with interner := r.1 }
  if r.2 ∈ p.blacklist then p
  else { p with c_enter_count := some value }

/-- Model of `Profiler::on_c_return`; `none` models the panic of
`self.c_enter_count.unwrap()` when no native-call entry reading was
recorded. -/
def Profiler.on_c_return (p : Profiler) (name : String) (value : Nat) :
    Option Profiler :=
  let r := internOf p.interner name
  let p := { p with interner := r.1 }
  if r.2 ∈ p.blacklist then some p
  else
    match p.c_enter_count with
    | none => none
    | some enter =>
      let stats : Statistics := { total := 0, cumulative := value - enter }
      let p := { p with
        previous_times := ainsert p.previous_times r.2 [stats],
        c_enter_count := none }
      some (add_to_blacklist p r.2)

/-! ### Racing update algorithm (src/update.rs and `Profiler::update`)

`trimmedOf` models the per-symbol loop body.  The Rust code computes
the trim indices as `(0.05 * n as f64) as usize` and
`((1.0 - 0.05) * n as f64) as usize`; under IEEE-754 round-to-nearest
these equal `n * 5 / 100` and `n * 95 / 100` in integer arithmetic for
every list length `n` a `Vec` can reach (the relative rounding error
is far below the distance of `0.05 * n` and `0.95 * n` to the nearest
crossed integer), so the indices are embedded as exact `Nat`
divisions.  `sort_unstable` is embedded as `insertionSort`: both
produce the unique `≤`-sorted permutation of a `Nat` list.  The fold
initial values are `u128::MAX` and `u128::MIN`. -/

def U128MAX : Nat := 2 ^ 128 - 1

/-- Model of the trimmed-range computation of `RacingAlgorithm::update`
(duplicated verbatim inside `Profiler::update`): the pair is
`(min, max)`; `none` models the panic of `values.first().unwrap()`. -/
def trimmedOf (values0 : List Nat) : Option (Nat × Nat) :=
  if values0.length < 10 then
    match values0 with
    | [] => none
    | v :: _ => some (v, v)
  else
    let values := List.insertionSort (· ≤ ·) values0
    let n := values.length
    let lo := n * 5 / 100
    let hi := n * 95 / 100
    let mid := (values.drop lo).take (hi - lo)
    some (mid.foldl (fun m v => if v < m then v else m) U128MAX,
          mid.foldl (fun m v => if m < v then v else m) 0)

structure FunctionAggregateStatistics where
  symbol : Nat
  min : Nat
  max : Nat
  mean : Nat
deriving DecidableEq

/-- Model of the per-symbol statistics loop of the Racing update:
cumulative values are extracted, trimmed, and the midpoint
`mean = min + (max - min) / 2` is attached. -/
def statsOf : List (Nat × List Statistics) → Option (List FunctionAggregateStatistics)
  | [] => some []
  | (s, vals) :: rest => do
    let mm ← trimmedOf (vals.map Statistics.cumulative)
    let tail ← statsOf rest
    pure ({ symbol := s, min := mm.1, max := mm.2,
            mean := mm.1 + (mm.2 - mm.1) / 2 } :: tail)

/-- Model of `Iterator::min_by_key` on `mean`: the first entry with the
smallest mean. -/
def minByMean : List FunctionAggregateStatistics → Option FunctionAggregateStatistics
  | [] => none
  | x :: t =>
    match minByMean t with
    | none => some x
    | some y => some (if x.mean ≤ y.mean then x else y)

/-- Model of the Racing decision on a snapshot of the live store: the
list of symbols to blacklist.  This is `RacingAlgorithm::update` with
`disable_updates = false`, which is also exactly the decision logic
inlined in `Profiler::update`. -/
def racingDecision (samples : List (Nat × List Statistics)) :
    Option (List Nat) :=
  match samples with
  | [] => some []
  | e :: rest =>
    if rest.isEmpty then some [e.1]
    else do
      let stats ← statsOf (e :: rest)
      let front ← minByMean stats
      let should := stats.all
        (fun g => g.symbol = front.symbol || decide (front.max < g.min))
      pure (if should then [front.symbol] else [])

/-- Model of `Profiler::update`: apply `add_to_blacklist` to every
symbol the Racing decision returned. -/
def Profiler.update (p : Profiler) : Option Profiler :=
  (racingDecision p.times).map (fun ds => ds.foldl add_to_blacklist p)

/-! ### get_statistics (src/profiler.rs) -/

structure FunctionStatistics where
  name : String
  num_calls : Nat
  total : Nat
  cumulative : Nat
deriving DecidableEq

/-- Model of the flush loop of `Profiler::get_statistics`: every key of
a snapshot of the live store is passed to `add_to_blacklist`. -/
def flushAll (p : Profiler) : Profiler :=
  p.times.foldl (fun q e => add_to_blacklist q e.1) p

/-- Model of the aggregation loop of `Profiler::get_statistics`; `none`
models the panic of `interner.resolve(sym).unwrap()`. -/
def recordsOf (i : List String) :
    List (Nat × List Statistics) → Option (List FunctionStatistics)
  | [] => some []
  | (s, ts) :: rest => do
    let name ← i[s]?
    let tail ← recordsOf i rest
    pure ({ name := name, num_calls := ts.length,
            total := (ts.map Statistics.total).sum,
            cumulative := (ts.map Statistics.cumulative).sum } :: tail)

/-- Model of `Profiler::get_statistics`: flush all live samples, then
aggregate the finalized store. -/
def Profiler.get_statistics (p : Profiler) :
    Option (List FunctionStatistics × Profiler) :=
  let q := flushAll p
  (recordsOf q.interner q.previous_times).map (fun recs => (recs, q))

/-- Model of `reset`: the `Lifecycle` impl of `Profiler` overrides only
`enable` and `disable`, so `reset` is the trait's provided default
no-op body `{}` (which, taking `&self`, touches no profiler state). -/
def Profiler.reset (p : Profiler) : Profiler := p

/-! ### Event steps and reachability -/

inductive Event where
  | call : String → Nat → Event
  | ret : String → Nat → Event
  | ccall : String → Nat → Event
  | cret : String → Nat → Event
  | upd : Event
  | stats : Event

/-- One public operation of the profiler; `none` models a panic. -/
def step (p : Profiler) : Event → Option Profiler
  | .call n v => some (p.on_call n v)
  | .ret n v => some (p.on_return n v)
  | .ccall n v => some (p.on_c_call n v)
  | .cret n v => p.on_c_return n v
  | .upd => p.update
  | .stats => (p.get_statistics).map Prod.snd

/-- States reachable from a fresh profiler by non-panicking runs of the
public operations. -/
inductive Reachable : Profiler → Prop
  | init : Reachable Profiler.new
  | next {p p' : Profiler} {e : Event} :
      Reachable p → step p e = some p' → Reachable p'

/-! ### Specification-side definitions used to state the claims -/

/-- Merging one symbol's live samples after its previously finalized
samples (the `previous_times` update performed by
`add_to_blacklist`). -/
def mergeOne (prev : List (Nat × List Statistics)) (s : Nat)
    (l : List Statistics) : List (Nat × List Statistics) :=
  match alookup prev s with
  | some old => ainsert prev s (old ++ l)
  | none => ainsert prev s l

/-- The finalized store after merging a whole snapshot of the live
store into it, entry by entry. -/
def mergeFold (prev : List (Nat × List Statistics))
    (snapshot : List (Nat × List Statistics)) :
    List (Nat × List Statistics) :=
  snapshot.foldl (fun pr e => mergeOne pr e.1 e.2) prev

/-- The blacklist after inserting every key of a snapshot. -/
def blFold (bl : List Nat) (snapshot : List (Nat × List Statistics)) :
    List Nat :=
  snapshot.foldl (fun b e => binsert b e.1) bl

/-- Pointwise combination of a finalized entry and a live entry. -/
def mlook : Option (List Statistics) → Option (List Statistics) →
    Option (List Statistics)
  | some a, some b => some (a ++ b)
  | some a, none => some a
  | none, some b => some b
  | none, none => none

/-- Structural invariant of every reachable profiler state: both
stores have duplicate-free keys, every finalized symbol is
blacklisted, no blacklisted symbol is live, and all stored sample
sequences are non-empty. -/
def Inv (p : Profiler) : Prop :=
  (akeys p.times).Nodup ∧
  (akeys p.previous_times).Nodup ∧
  (∀ s ∈ akeys p.previous_times, s ∈ p.blacklist) ∧
  (∀ s ∈ p.blacklist, s ∉ akeys p.times) ∧
  (∀ e ∈ p.times, e.2 ≠ ([] : List Statistics)) ∧
  (∀ e ∈ p.previous_times, e.2 ≠ ([] : List Statistics))

/-- The middle 90% of a sample-value list, as described by the spec:
sort the values, discard the lowest and highest 5% of the sequence,
keep the rest. -/
def trimmedMid (values0 : List Nat) : List Nat :=
  let values := List.insertionSort (· ≤ ·) values0
  let n := values.length
  (values.drop (n * 5 / 100)).take (n * 95 / 100 - n * 5 / 100)

/-- A symbol's aggregate is separated when it has the smallest mean
and its trimmed max is strictly below every other symbol's trimmed
min. -/
def Separated (stats : List FunctionAggregateStatistics)
    (f : FunctionAggregateStatistics) : Prop :=
  (∀ g ∈ stats, f.mean ≤ g.mean) ∧
  (∀ g ∈ stats, g.symbol ≠ f.symbol → f.max < g.min)

/-! ### Well-formed nested event sequences (claim C1)

A properly nested sequence of Call/Return pairs is a forest of call
trees, encoded in first-child / next-sibling form:
`node name cv children rv siblings` is a call of `name` whose Call
event carries the counter reading `cv`, whose nested calls are
`children`, whose matching Return event carries the reading `rv`, and
which is followed at the same nesting level by `siblings`.  The event
list of a forest is the in-order traversal: the Call, the events of
the children, the matching Return, then the events of the siblings. -/

inductive Forest : Type where
  | nil : Forest
  | node : String → Nat → Forest → Nat → Forest → Forest
deriving DecidableEq

inductive CREvent where
  | call : String → Nat → CREvent
  | ret : String → Nat → CREvent
deriving DecidableEq

def eventsOfF : Forest → List CREvent
  | .nil => []
  | .node n cv ch rv sib =>
    CREvent.call n cv ::
      (eventsOfF ch ++ (CREvent.ret n rv :: eventsOfF sib))

/-- Number of Call/Return pairs in a forest. -/
def sizeF : Forest → Nat
  | .nil => 0
  | .node _ _ ch _ sib => 1 + sizeF ch + sizeF sib

/-- The counter readings of a forest's events, in event order. -/
def readingsOfF : Forest → List Nat
  | .nil => []
  | .node _ cv ch rv sib =>
    cv :: (readingsOfF ch ++ (rv :: readingsOfF sib))

/-- All frames of a forest: name, Call reading, children, Return
reading — one entry per Call/Return pair. -/
def nodesOfF : Forest → List (String × Nat × Forest × Nat)
  | .nil => []
  | .node n cv ch rv sib =>
    (n, cv, ch, rv) :: (nodesOfF ch ++ nodesOfF sib)

/-- The stopwatch of a frame after its child calls: paused at each
child's Call reading and unpaused at each child's Return reading. -/
def swChildren (sw : Stopwatch) : Forest → Stopwatch
  | .nil => sw
  | .node _ cv _ rv sib => swChildren ((sw.pause cv).unpause rv) sib

/-- The sample the profiler records for a frame entered at reading
`cv`, with child calls `ch`, returned from at reading `rv`. -/
def sampleOf (cv : Nat) (ch : Forest) (rv : Nat) : Statistics :=
  (swChildren (Stopwatch.new cv) ch).stop rv

/-- Total number of samples held in the live store. -/
def totalSamples (m : List (Nat × List Statistics)) : Nat :=
  (m.map (fun e => e.2.length)).sum

def applyCR (p : Profiler) : CREvent → Profiler
  | .call n v => p.on_call n v
  | .ret n v => p.on_return n v

def runCR (p : Profiler) (evs : List CREvent) : Profiler :=
  evs.foldl applyCR p

/-! ### Lemmas about the association-list maps -/

theorem alookup_cons {α : Type} (k : Nat) (v : α) (t : List (Nat × α))
    (s : Nat) :
    alookup ((k, v) :: t) s = if k = s then some v else alookup t s := rfl

theorem alookup_eq_none_of_not_mem {α : Type} {m : List (Nat × α)} {s : Nat}
    (h : s ∉ akeys m) : alookup m s = none := by
  induction m with
  | nil => rfl
  | cons e t ih =>
    obtain ⟨k, v⟩ := e
    have hk : k ≠ s := by
      intro hks
      exact h (by simp [akeys, hks])
    have ht : s ∉ akeys t := by
      intro hmem
      exact h (by simp [akeys] at hmem ⊢; exact Or.inr hmem)
    simp [alookup, hk, ih ht]

theorem mem_akeys_of_alookup_eq_some {α : Type} {m : List (Nat × α)} {s : Nat}
    {v : α} (h : alookup m s = some v) : s ∈ akeys m := by
  by_contra hn
  rw [alookup_eq_none_of_not_mem hn] at h
  exact Option.noConfusion h

theorem alookup_isSome_of_mem_akeys {α : Type} {m : List (Nat × α)} {s : Nat}
    (h : s ∈ akeys m) : (alookup m s).isSome := by
  induction m with
  | nil => simp [akeys] at h
  | cons e t ih =>
    obtain ⟨k, v⟩ := e
    by_cases hk : k = s
    · simp [alookup, hk]
    · have : s ∈ akeys t := by
        simp [akeys] at h ⊢
        rcases h with h | h
        · exact absurd h.symm hk
        · exact h
      simp [alookup, hk, ih this]

theorem mem_of_alookup_eq_some {α : Type} {m : List (Nat × α)} {s : Nat}
    {v : α} (h : alookup m s = some v) : (s, v) ∈ m := by
  induction m with
  | nil => exact Option.noConfusion h
  | cons e t ih =>
    obtain ⟨k, w⟩ := e
    by_cases hk : k = s
    · simp [alookup, hk] at h
      simp [hk, h]
    · simp [alookup, hk] at h
      exact List.mem_cons_of_mem _ (ih h)

theorem alookup_ainsert_self {α : Type} (m : List (Nat × α)) (k : Nat)
    (v : α) : alookup (ainsert m k v) k = some v := by
  induction m with
  | nil => simp [ainsert, alookup]
  | cons e t ih =>
    obtain ⟨k', v'⟩ := e
    by_cases hk : k' = k
    · simp [ainsert, hk, alookup]
    · simp [ainsert, hk, alookup, ih]

theorem alookup_ainsert_ne {α : Type} (m : List (Nat × α)) (k : Nat) (v : α)
    {s : Nat} (hs : k ≠ s) : alookup (ainsert m k v) s = alookup m s := by
  induction m with
  | nil => simp [ainsert, alookup, hs]
  | cons e t ih =>
    obtain ⟨k', v'⟩ := e
    by_cases hk : k' = k
    · subst hk
      simp [ainsert, alookup, hs]
    · simp only [ainsert, hk, if_false, alookup]
      by_cases hks : k' = s
      · simp [hks]
      · simp [hks, ih]

theorem akeys_cons {α : Type} (k : Nat) (v : α) (t : List (Nat × α)) :
    akeys ((k, v) :: t) = k :: akeys t := rfl

theorem akeys_ainsert {α : Type} (m : List (Nat × α)) (k : Nat) (v : α) :
    akeys (ainsert m k v) =
      if k ∈ akeys m then akeys m else akeys m ++ [k] := by
  induction m with
  | nil => simp [ainsert, akeys]
  | cons e t ih =>
    obtain ⟨k', v'⟩ := e
    by_cases hk : k' = k
    · subst hk
      simp [ainsert, akeys]
    · rw [show ainsert ((k', v') :: t) k v = (k', v') :: ainsert t k v from by
        simp [ainsert, hk]]
      rw [akeys_cons, akeys_cons, ih]
      have hiff : (k ∈ k' :: akeys t) ↔ (k ∈ akeys t) := by
        constructor
        · intro h
          rcases List.mem_cons.mp h with h | h
          · exact absurd h.symm hk
          · exact h
        · exact fun h => List.mem_cons_of_mem _ h
      by_cases hmem : k ∈ akeys t
      · rw [if_pos hmem, if_pos (hiff.mpr hmem)]
      · rw [if_neg hmem, if_neg (fun h => hmem (hiff.mp h))]
        rfl

theorem ainsert_of_not_mem {α : Type} {m : List (Nat × α)} {k : Nat}
    (v : α) (h : k ∉ akeys m) : ainsert m k v = m ++ [(k, v)] := by
  induction m with
  | nil => simp [ainsert]
  | cons e t ih =>
    obtain ⟨k', v'⟩ := e
    have hk : k' ≠ k := by
      intro hkk
      exact h (by simp [akeys, hkk])
    have ht : k ∉ akeys t := by
      intro hmem
      exact h (by simp [akeys] at hmem ⊢; exact Or.inr hmem)
    simp [ainsert, hk, ih ht]

theorem nodup_akeys_ainsert {α : Type} {m : List (Nat × α)} (k : Nat) (v : α)
    (h : (akeys m).Nodup) : (akeys (ainsert m k v)).Nodup := by
  rw [akeys_ainsert]
  by_cases hmem : k ∈ akeys m
  · simpa [hmem] using h
  · rw [if_neg hmem]
    refine h.append (List.nodup_singleton _) ?_
    intro a ha hb
    simp at hb
    subst hb
    exact hmem ha

theorem mem_ainsert {α : Type} {m : List (Nat × α)} {k : Nat} {v : α}
    {e : Nat × α} (h : e ∈ ainsert m k v) : e ∈ m ∨ e = (k, v) := by
  induction m with
  | nil => simp [ainsert] at h; simp [h]
  | cons e' t ih =>
    obtain ⟨k', v'⟩ := e'
    by_cases hk : k' = k
    · simp [ainsert, hk] at h
      rcases h with h | h
      · exact Or.inr (by simp [h])
      · exact Or.inl (List.mem_cons_of_mem _ h)
    · simp only [ainsert, hk, if_false, List.mem_cons] at h
      rcases h with h | h
      · exact Or.inl (by simp [h])
      · rcases ih h with h' | h'
        · exact Or.inl (List.mem_cons_of_mem _ h')
        · exact Or.inr h'

theorem aremove_sublist {α : Type} (m : List (Nat × α)) (s : Nat) :
    (aremove m s).Sublist m := by
  induction m with
  | nil => simp [aremove]
  | cons e t ih =>
    obtain ⟨k, v⟩ := e
    by_cases hk : k = s
    · simp only [aremove, if_pos hk]
      exact List.sublist_cons_self _ _
    · simpa [aremove, hk] using ih

theorem akeys_aremove_sublist {α : Type} (m : List (Nat × α)) (s : Nat) :
    (akeys (aremove m s)).Sublist (akeys m) :=
  (aremove_sublist m s).map Prod.fst

theorem not_mem_akeys_aremove {α : Type} {m : List (Nat × α)} {s : Nat}
    (h : (akeys m).Nodup) : s ∉ akeys (aremove m s) := by
  induction m with
  | nil => simp [aremove, akeys]
  | cons e t ih =>
    obtain ⟨k, v⟩ := e
    simp only [akeys, List.map_cons, List.nodup_cons] at h
    by_cases hk : k = s
    · subst hk
      simp only [aremove, if_pos rfl]
      exact h.1
    · intro hmem
      simp only [aremove, hk, if_false, akeys, List.map_cons,
        List.mem_cons] at hmem
      rcases hmem with hmem | hmem
      · exact hk hmem.symm
      · exact ih h.2 hmem

theorem mem_binsert_self (l : List Nat) (s : Nat) : s ∈ binsert l s := by
  by_cases h : s ∈ l <;> simp [binsert, h]

theorem mem_binsert_of_mem (l : List Nat) (k : Nat) {s : Nat} (h : s ∈ l) :
    s ∈ binsert l k := by
  by_cases hk : k ∈ l <;> simp [binsert, hk, h]

theorem mem_binsert {l : List Nat} {k s : Nat} (h : s ∈ binsert l k) :
    s ∈ l ∨ s = k := by
  by_cases hk : k ∈ l
  · simp [binsert, hk] at h; exact Or.inl h
  · simp [binsert, hk] at h; exact h

/-! ### Lemmas about the interner -/

theorem idxOf?_isSome_of_mem {n : String} {i : List String} (h : n ∈ i) :
    ∃ k, idxOf? n i = some k := by
  induction i with
  | nil => simp at h
  | cons s t ih =>
    by_cases hs : s = n
    · exact ⟨0, by simp [idxOf?, hs]⟩
    · have : n ∈ t := by
        rcases List.mem_cons.mp h with h' | h'
        · exact absurd h'.symm hs
        · exact h'
      obtain ⟨k, hk⟩ := ih this
      exact ⟨k + 1, by simp [idxOf?, hs, hk]⟩

theorem mem_of_idxOf?_eq_some {n : String} {i : List String} {k : Nat}
    (h : idxOf? n i = some k) : n ∈ i := by
  induction i generalizing k with
  | nil => exact Option.noConfusion h
  | cons s t ih =>
    by_cases hs : s = n
    · simp [hs]
    · simp only [idxOf?, hs, if_false, Option.map_eq_some'] at h
      obtain ⟨k', hk', _⟩ := h
      exact List.mem_cons_of_mem _ (ih hk')

theorem idxOf?_append_of_some {n : String} {i : List String} {k : Nat}
    (ext : List String) (h : idxOf? n i = some k) :
    idxOf? n (i ++ ext) = some k := by
  induction i generalizing k with
  | nil => exact Option.noConfusion h
  | cons s t ih =>
    by_cases hs : s = n
    · simp [idxOf?, hs] at h ⊢
      exact h
    · simp only [idxOf?, hs, if_false, Option.map_eq_some'] at h
      obtain ⟨k', hk', hkk⟩ := h
      simp only [List.cons_append, idxOf?, hs, if_false, List.append_eq]
      rw [ih hk', Option.map_some']
      exact congrArg some hkk

theorem internOf_of_idxOf? {n : String} {i : List String} {k : Nat}
    (h : idxOf? n i = some k) : internOf i n = (i, k) := by
  simp [internOf, h]

theorem internOf_mem (i : List String) (n : String) :
    n ∈ (internOf i n).1 := by
  unfold internOf
  cases h : idxOf? n i with
  | none => simp
  | some k => exact mem_of_idxOf?_eq_some h

theorem internOf_extends (i : List String) (n : String) :
    ∃ ext, (internOf i n).1 = i ++ ext := by
  unfold internOf
  cases h : idxOf? n i with
  | none => exact ⟨[n], rfl⟩
  | some k => exact ⟨[], by simp⟩

theorem idxOf?_internOf (i : List String) (n : String) :
    idxOf? n (internOf i n).1 = some (internOf i n).2 := by
  unfold internOf
  cases h : idxOf? n i with
  | none =>
    simp only
    induction i with
    | nil => simp [idxOf?]
    | cons s t ih =>
      by_cases hs : s = n
      · simp [idxOf?, hs] at h
      · simp only [idxOf?, hs, if_false, Option.map_eq_none'] at h
        simp [idxOf?, hs, ih h, List.length_cons]
  | some k =>
    simp only
    exact h

/-! ### Field behaviour of the event handlers -/

theorem on_call_fields (p : Profiler) (name : String) (value : Nat) :
    (p.on_call name value).times = p.times ∧
    (p.on_call name value).previous_times = p.previous_times ∧
    (p.on_call name value).blacklist = p.blacklist ∧
    (p.on_call name value).c_enter_count = p.c_enter_count := by
  unfold Profiler.on_call
  by_cases h : (internOf p.interner name).2 ∈ p.blacklist <;> simp [h]

theorem on_call_not_blacklisted (p : Profiler) (name : String) (value : Nat)
    (hbl : (internOf p.interner name).2 ∉ p.blacklist) :
    p.on_call name value =
      { p with interner := (internOf p.interner name).1,
               stack :=
                 match p.stack with
                 | [] => [Stopwatch.new value]
                 | top :: rest =>
                   Stopwatch.new value :: top.pause value :: rest } := by
  unfold Profiler.on_call
  simp [hbl]

theorem on_return_not_blacklisted (p : Profiler) (name : String)
    (value : Nat) (sw : Stopwatch) (rest : List Stopwatch)
    (hbl : (internOf p.interner name).2 ∉ p.blacklist)
    (hst : p.stack = sw :: rest) :
    p.on_return name value =
      { p with interner := (internOf p.interner name).1,
               stack :=
                 (match rest with
                  | [] => []
                  | top :: r2 => top.unpause value :: r2),
               times := ainsert p.times (internOf p.interner name).2
                 ((alookup p.times (internOf p.interner name).2).getD [] ++
                   [sw.stop value]) } := by
  unfold Profiler.on_return
  simp only [hbl, hst, List.not_mem_nil, if_false, record_statistics]
  cases rest <;> rfl

theorem on_return_empty_stack (p : Profiler) (name : String) (value : Nat)
    (hbl : (internOf p.interner name).2 ∉ p.blacklist) (hst : p.stack = []) :
    p.on_return name value =
      { p with interner := (internOf p.interner name).1 } := by
  unfold Profiler.on_return
  simp [hbl, hst]

theorem on_return_blacklisted (p : Profiler) (name : String) (value : Nat)
    (hbl : (internOf p.interner name).2 ∈ p.blacklist) :
    p.on_return name value =
      { p with interner := (internOf p.interner name).1 } := by
  unfold Profiler.on_return
  simp [hbl]

theorem on_call_blacklisted (p : Profiler) (name : String) (value : Nat)
    (hbl : (internOf p.interner name).2 ∈ p.blacklist) :
    p.on_call name value =
      { p with interner := (internOf p.interner name).1 } := by
  unfold Profiler.on_call
  simp [hbl]

theorem on_c_call_fields (p : Profiler) (name : String) (value : Nat) :
    (p.on_c_call name value).times = p.times ∧
    (p.on_c_call name value).previous_times = p.previous_times ∧
    (p.on_c_call name value).blacklist = p.blacklist := by
  unfold Profiler.on_c_call
  by_cases h : (internOf p.interner name).2 ∈ p.blacklist <;> simp [h]

theorem on_return_fields (p : Profiler) (name : String) (value : Nat) :
    (p.on_return name value).previous_times = p.previous_times ∧
    (p.on_return name value).blacklist = p.blacklist ∧
    (p.on_return name value).c_enter_count = p.c_enter_count := by
  unfold Profiler.on_return
  by_cases h : (internOf p.interner name).2 ∈ p.blacklist
  · simp [h]
  · simp only [h, if_false]
    cases hst : p.stack with
    | nil => simp
    | cons sw rest =>
      simp only [record_statistics]
      cases rest <;> simp

/-! ### Claim theorems: stopwatch and simple behaviours -/

/-- C2.  Every Stopwatch transition takes the counter reading as the
caller-supplied argument `value` (the handlers of `Profiler` read the
counter once per event and pass that one value); `stop value` returns
the sample with `cumulative = value - start` and
`total = elapsed + (value - last)`, and `on_return` records exactly
that sample, built from the single reading, for the popped frame. -/
theorem claim2_stopwatch_equations :
    (∀ (sw : Stopwatch) (value : Nat),
      sw.stop value =
        { total := sw.elapsed + (value - sw.last),
          cumulative := value - sw.start }) ∧
    (∀ (p : Profiler) (name : String) (value : Nat) (sw : Stopwatch)
        (rest : List Stopwatch),
      p.blacklist = [] → p.stack = sw :: rest →
      alookup (p.on_return name value).times (internOf p.interner name).2 =
        some ((alookup p.times (internOf p.interner name).2).getD [] ++
          [{ total := sw.elapsed + (value - sw.last),
             cumulative := value - sw.start }])) := by
  constructor
  · intro sw value
    rfl
  · intro p name value sw rest hbl hst
    rw [on_return_not_blacklisted p name value sw rest
      (by rw [hbl]; exact List.not_mem_nil _) hst]
    exact alookup_ainsert_self _ _ _

/-- Witness for C2 at a concrete profiler state: one open frame with
`elapsed = 2`, `start = 3`, `last = 4`; the reading `9` yields the
sample `total = 2 + (9 - 4) = 7`, `cumulative = 9 - 3 = 6`. -/
theorem claim2_stopwatch_equations_witness :
    alookup (((⟨["f"], [], [⟨2, 3, 4⟩], [], [], none⟩ : Profiler)).on_return
        "f" 9).times (internOf ["f"] "f").2 =
      some [(⟨7, 6⟩ : Statistics)] := by
  have h := claim2_stopwatch_equations.2
    (⟨["f"], [], [⟨2, 3, 4⟩], [], [], none⟩ : Profiler)
    "f" 9 ⟨2, 3, 4⟩ [] rfl rfl
  simpa using h

/-- C7.  The code of `on_c_return` evaluated at the failing input: a
fresh profiler receiving a native-return event for the non-blacklisted
name "f" with no recorded native-call entry reading panics
(`c_enter_count.unwrap()` on `None`), modelled as `none` — it is not
the silent no-op the specification requires. -/
theorem claim7_c_return_panics :
    Profiler.new.on_c_return "f" 0 = none := by
  rfl

/-- C8, counterexample.  After `reset()` on a profiler with one open
frame, the call stack is NOT empty, refuting the claim that `reset`
clears the stack: the `Lifecycle` impl of `Profiler` overrides only
`enable` and `disable`, so `reset` is the trait's default no-op. -/
theorem claim8_reset_counterexample :
    ((Profiler.new.on_call "f" 0).reset).stack ≠ [] := by
  decide

/-- C8, amended.  Calling `reset()` on a `Profiler` is a no-op: the
call stack, both sample stores, the blacklist and the symbol table are
all left exactly as they were (the `Lifecycle` trait's default `reset`
body is empty and `Profiler` does not override it). -/
theorem claim8_reset_noop (p : Profiler) :
    p.reset = p ∧ p.reset.stack = p.stack ∧ p.reset.times = p.times ∧
    p.reset.previous_times = p.previous_times ∧
    p.reset.blacklist = p.blacklist ∧ p.reset.interner = p.interner :=
  ⟨rfl, rfl, rfl, rfl, rfl, rfl⟩

/-! ### The flush loop of get_statistics, characterized -/

theorem flushAll_eq (p : Profiler) :
    flushAll p =
      { p with times := [],
               previous_times := mergeFold p.previous_times p.times,
               blacklist := blFold p.blacklist p.times } := by
  suffices h : ∀ (E : List (Nat × List Statistics)) (q : Profiler),
      q.times = E →
      E.foldl (fun q e => add_to_blacklist q e.1) q =
        { q with times := [],
                 previous_times := mergeFold q.previous_times E,
                 blacklist := blFold q.blacklist E } by
    exact h p.times p rfl
  intro E
  induction E with
  | nil =>
    intro q hq
    simp only [List.foldl_nil, mergeFold, blFold]
    rw [← hq]
  | cons e rest ih =>
    intro q hq
    obtain ⟨s, l⟩ := e
    have hstep : add_to_blacklist q s =
        { q with times := rest,
                 previous_times := mergeOne q.previous_times s l,
                 blacklist := binsert q.blacklist s } := by
      unfold add_to_blacklist mergeOne
      rw [hq]
      simp [alookup, aremove]
    simp only [List.foldl_cons]
    rw [hstep, ih _ rfl]
    simp [mergeFold, blFold]

theorem mem_blFold_of_mem (bl : List Nat)
    (E : List (Nat × List Statistics)) {s : Nat} (h : s ∈ bl) :
    s ∈ blFold bl E := by
  induction E generalizing bl with
  | nil => exact h
  | cons e rest ih =>
    exact ih _ (mem_binsert_of_mem _ _ h)

theorem mem_blFold_of_key (bl : List Nat)
    {E : List (Nat × List Statistics)} {s : Nat} (h : s ∈ akeys E) :
    s ∈ blFold bl E := by
  induction E generalizing bl with
  | nil => simp [akeys] at h
  | cons e rest ih =>
    obtain ⟨k, l⟩ := e
    rw [akeys_cons] at h
    rcases List.mem_cons.mp h with h' | h'
    · subst h'
      exact mem_blFold_of_mem (binsert bl s) rest (mem_binsert_self _ _)
    · exact ih _ h'

theorem alookup_mergeOne_self (prev : List (Nat × List Statistics))
    (s : Nat) (l : List Statistics) :
    alookup (mergeOne prev s l) s =
      some ((alookup prev s).getD [] ++ l) := by
  unfold mergeOne
  cases h : alookup prev s with
  | none => simp [alookup_ainsert_self, h]
  | some old => simp [alookup_ainsert_self, h]

theorem alookup_mergeOne_ne (prev : List (Nat × List Statistics))
    (s : Nat) (l : List Statistics) {t : Nat} (h : s ≠ t) :
    alookup (mergeOne prev s l) t = alookup prev t := by
  unfold mergeOne
  cases h' : alookup prev s with
  | none => simp [alookup_ainsert_ne _ _ _ h]
  | some old => simp [alookup_ainsert_ne _ _ _ h]

theorem alookup_mergeFold (prev : List (Nat × List Statistics))
    {E : List (Nat × List Statistics)} (hnd : (akeys E).Nodup) (s : Nat) :
    alookup (mergeFold prev E) s =
      mlook (alookup prev s) (alookup E s) := by
  induction E generalizing prev with
  | nil =>
    rw [show mergeFold prev [] = prev from rfl,
      show alookup ([] : List (Nat × List Statistics)) s = none from rfl]
    cases h' : alookup prev s <;> rfl
  | cons e rest ih =>
    obtain ⟨k, l⟩ := e
    rw [akeys_cons, List.nodup_cons] at hnd
    have hfold : mergeFold prev ((k, l) :: rest) =
        mergeFold (mergeOne prev k l) rest := rfl
    rw [hfold, ih _ hnd.2]
    by_cases hks : k = s
    · subst hks
      have hrest : alookup rest k = none :=
        alookup_eq_none_of_not_mem hnd.1
      rw [hrest, alookup_mergeOne_self]
      rw [alookup_cons, if_pos rfl]
      cases h' : alookup prev k <;> simp [mlook, h']
    · rw [alookup_mergeOne_ne _ _ _ hks, alookup_cons, if_neg hks]

theorem akeys_mergeOne_nodup {prev : List (Nat × List Statistics)}
    (s : Nat) (l : List Statistics) (h : (akeys prev).Nodup) :
    (akeys (mergeOne prev s l)).Nodup := by
  unfold mergeOne
  cases alookup prev s with
  | none => exact nodup_akeys_ainsert _ _ h
  | some old => exact nodup_akeys_ainsert _ _ h

theorem akeys_mergeFold_nodup {prev E : List (Nat × List Statistics)}
    (h : (akeys prev).Nodup) : (akeys (mergeFold prev E)).Nodup := by
  induction E generalizing prev with
  | nil => exact h
  | cons e rest ih => exact ih (akeys_mergeOne_nodup _ _ h)

theorem mergeFold_values_ne_nil {prev E : List (Nat × List Statistics)}
    (hprev : ∀ e ∈ prev, e.2 ≠ ([] : List Statistics))
    (hE : ∀ e ∈ E, e.2 ≠ ([] : List Statistics)) :
    ∀ e ∈ mergeFold prev E, e.2 ≠ ([] : List Statistics) := by
  induction E generalizing prev with
  | nil => exact hprev
  | cons e rest ih =>
    obtain ⟨k, l⟩ := e
    have hl : l ≠ [] := hE (k, l) (List.mem_cons_self _ _)
    have hone : ∀ e' ∈ mergeOne prev k l, e'.2 ≠ ([] : List Statistics) := by
      intro e' he'
      unfold mergeOne at he'
      cases h' : alookup prev k with
      | none =>
        rw [h'] at he'
        rcases mem_ainsert he' with h'' | h''
        · exact hprev _ h''
        · rw [h'']
          exact hl
      | some old =>
        rw [h'] at he'
        rcases mem_ainsert he' with h'' | h''
        · exact hprev _ h''
        · rw [h'']
          simp [hl]
    exact ih hone (fun e' he' => hE e' (List.mem_cons_of_mem _ he'))

/-! ### Lemmas about recordsOf -/

theorem recordsOf_cons_eq_some {i : List String} {s : Nat}
    {ts : List Statistics} {rest : List (Nat × List Statistics)}
    {recs : List FunctionStatistics}
    (h : recordsOf i ((s, ts) :: rest) = some recs) :
    ∃ name tail, i[s]? = some name ∧ recordsOf i rest = some tail ∧
      ({ name := name, num_calls := ts.length,
         total := (ts.map Statistics.total).sum,
         cumulative := (ts.map Statistics.cumulative).sum } :
        FunctionStatistics) :: tail = recs := by
  simp only [recordsOf, Option.bind_eq_bind, Option.bind_eq_some] at h
  obtain ⟨name, hname, tail, htail, hrecs⟩ := h
  exact ⟨name, tail, hname, htail, Option.some.inj hrecs⟩

theorem recordsOf_length {i : List String}
    {m : List (Nat × List Statistics)} {recs : List FunctionStatistics}
    (h : recordsOf i m = some recs) : recs.length = m.length := by
  induction m generalizing recs with
  | nil =>
    simp [recordsOf] at h
    simp [← h]
  | cons e rest ih =>
    obtain ⟨s, ts⟩ := e
    obtain ⟨name, tail, hname, htail, hrecs⟩ := recordsOf_cons_eq_some h
    rw [← hrecs]
    simp [ih htail]

theorem recordsOf_isSome {i : List String}
    {m : List (Nat × List Statistics)}
    (h : ∀ s ∈ akeys m, s < i.length) :
    ∃ recs, recordsOf i m = some recs := by
  induction m with
  | nil => exact ⟨[], rfl⟩
  | cons e rest ih =>
    obtain ⟨s, ts⟩ := e
    have hs : s < i.length := h s (by simp [akeys])
    obtain ⟨name, hname⟩ : ∃ name, i[s]? = some name :=
      ⟨i[s], List.getElem?_eq_getElem hs⟩
    obtain ⟨tail, htail⟩ := ih (fun t ht => h t (by
      rw [akeys_cons]
      exact List.mem_cons_of_mem _ ht))
    refine ⟨(⟨name, ts.length, (ts.map Statistics.total).sum,
      (ts.map Statistics.cumulative).sum⟩ : FunctionStatistics) :: tail, ?_⟩
    simp [recordsOf, hname, htail]

theorem recordsOf_mem {i : List String}
    {m : List (Nat × List Statistics)} {recs : List FunctionStatistics}
    (h : recordsOf i m = some recs) :
    ∀ s ts, (s, ts) ∈ m →
      ∃ name, i[s]? = some name ∧
        ({ name := name, num_calls := ts.length,
           total := (ts.map Statistics.total).sum,
           cumulative := (ts.map Statistics.cumulative).sum } :
          FunctionStatistics) ∈ recs := by
  induction m generalizing recs with
  | nil =>
    intro s ts hmem
    simp at hmem
  | cons e rest ih =>
    obtain ⟨k, l⟩ := e
    obtain ⟨name, tail, hname, htail, hrecs⟩ := recordsOf_cons_eq_some h
    intro s ts hmem
    rcases List.mem_cons.mp hmem with h' | h'
    · have hk : s = k := congrArg Prod.fst h'
      have hl : ts = l := congrArg Prod.snd h'
      subst hk
      subst hl
      exact ⟨name, hname, by rw [← hrecs]; exact List.mem_cons_self _ _⟩
    · obtain ⟨name', hname', hmem'⟩ := ih htail s ts h'
      exact ⟨name', hname',
        by rw [← hrecs]; exact List.mem_cons_of_mem _ hmem'⟩

theorem recordsOf_num_calls {i : List String}
    {m : List (Nat × List Statistics)} {recs : List FunctionStatistics}
    (h : recordsOf i m = some recs) :
    ∀ r ∈ recs, ∃ e ∈ m, r.num_calls = e.2.length := by
  induction m generalizing recs with
  | nil =>
    intro r hr
    simp [recordsOf] at h
    subst h
    simp at hr
  | cons e rest ih =>
    obtain ⟨k, l⟩ := e
    obtain ⟨name, tail, hname, htail, hrecs⟩ := recordsOf_cons_eq_some h
    intro r hr
    rw [← hrecs] at hr
    rcases List.mem_cons.mp hr with h' | h'
    · exact ⟨(k, l), List.mem_cons_self _ _, by rw [h']⟩
    · obtain ⟨e', he', hlen⟩ := ih htail r h'
      exact ⟨e', List.mem_cons_of_mem _ he', hlen⟩

theorem flushAll_of_times_nil {p : Profiler} (h : p.times = []) :
    flushAll p = p := by
  unfold flushAll
  rw [h]
  rfl

theorem mlook_isSome (o1 o2 : Option (List Statistics)) :
    (mlook o1 o2).isSome = (o1.isSome || o2.isSome) := by
  cases o1 <;> cases o2 <;> rfl

/-! ### Claim theorems: get_statistics -/

/-- C5.  `get_statistics` empties the live store, blacklists every
live symbol, merges each live symbol's samples after its previously
finalized samples, and returns one record per symbol ever finalized
(the keys of the finalized store are exactly the old finalized keys
together with the old live keys), each record carrying
`num_calls = sample count`, `total = sum of Sample.total` and
`cumulative = sum of Sample.cumulative`. -/
theorem claim5_get_statistics_flush (p : Profiler)
    (hT : (akeys p.times).Nodup)
    (hP : (akeys p.previous_times).Nodup)
    (hres : ∀ s ∈ akeys p.previous_times ++ akeys p.times,
      s < p.interner.length) :
    ∃ recs q, p.get_statistics = some (recs, q) ∧
      q.times = [] ∧
      (∀ s ∈ akeys p.times, s ∈ q.blacklist) ∧
      (∀ s, alookup q.previous_times s =
        mlook (alookup p.previous_times s) (alookup p.times s)) ∧
      (∀ s, s ∈ akeys q.previous_times ↔
        s ∈ akeys p.previous_times ∨ s ∈ akeys p.times) ∧
      (akeys q.previous_times).Nodup ∧
      recs.length = q.previous_times.length ∧
      (∀ s ts, alookup q.previous_times s = some ts →
        ∃ name, p.interner[s]? = some name ∧
          (⟨name, ts.length, (ts.map Statistics.total).sum,
            (ts.map Statistics.cumulative).sum⟩ :
            FunctionStatistics) ∈ recs) := by
  have hq := flushAll_eq p
  have hqint : (flushAll p).interner = p.interner := by rw [hq]
  have hqt : (flushAll p).times = [] := by rw [hq]
  have hqprev : (flushAll p).previous_times =
      mergeFold p.previous_times p.times := by rw [hq]
  have hlook : ∀ s, alookup (flushAll p).previous_times s =
      mlook (alookup p.previous_times s) (alookup p.times s) := by
    intro s
    rw [hqprev]
    exact alookup_mergeFold _ hT s
  have hkeys : ∀ s, s ∈ akeys (flushAll p).previous_times ↔
      s ∈ akeys p.previous_times ∨ s ∈ akeys p.times := by
    intro s
    constructor
    · intro hmem
      have h1 := alookup_isSome_of_mem_akeys hmem
      rw [hlook s, mlook_isSome] at h1
      rcases Bool.or_eq_true_iff.mp h1 with h2 | h2
      · obtain ⟨v, hv⟩ := Option.isSome_iff_exists.mp h2
        exact Or.inl (mem_akeys_of_alookup_eq_some hv)
      · obtain ⟨v, hv⟩ := Option.isSome_iff_exists.mp h2
        exact Or.inr (mem_akeys_of_alookup_eq_some hv)
    · intro hmem
      have h1 : (alookup (flushAll p).previous_times s).isSome := by
        rw [hlook s, mlook_isSome]
        rcases hmem with h2 | h2
        · rw [alookup_isSome_of_mem_akeys h2]
          rfl
        · rw [alookup_isSome_of_mem_akeys h2]
          simp
      obtain ⟨v, hv⟩ := Option.isSome_iff_exists.mp h1
      exact mem_akeys_of_alookup_eq_some hv
  obtain ⟨recs, hrecs⟩ : ∃ recs,
      recordsOf (flushAll p).interner (flushAll p).previous_times =
        some recs := by
    apply recordsOf_isSome
    intro s hs
    rw [hqint]
    rcases (hkeys s).mp hs with h2 | h2
    · exact hres s (List.mem_append_left _ h2)
    · exact hres s (List.mem_append_right _ h2)
  refine ⟨recs, flushAll p, ?_, hqt, ?_, hlook, hkeys, ?_, ?_, ?_⟩
  · show Option.map (fun recs => (recs, flushAll p))
      (recordsOf (flushAll p).interner (flushAll p).previous_times) =
        some (recs, flushAll p)
    rw [hrecs]
    rfl
  · intro s hs
    rw [hq]
    exact mem_blFold_of_key _ hs
  · rw [hqprev]
    exact akeys_mergeFold_nodup hP
  · exact recordsOf_length hrecs
  · intro s ts hts
    obtain ⟨name, hname, hmem⟩ :=
      recordsOf_mem hrecs s ts (mem_of_alookup_eq_some hts)
    rw [hqint] at hname
    exact ⟨name, hname, hmem⟩

/-- Witness for C5: one live symbol "f" with the samples of the
specification's round-trip example, `(total 5, cumulative 8)` and
`(total 3, cumulative 6)`. -/
theorem claim5_get_statistics_flush_witness :
    ∃ recs q,
      (⟨["f"], [], [], [(0, [⟨5, 8⟩, ⟨3, 6⟩])], [], none⟩ :
        Profiler).get_statistics = some (recs, q) ∧
      q.times = [] ∧
      (∀ s ∈ akeys [(0, [(⟨5, 8⟩ : Statistics), ⟨3, 6⟩])], s ∈ q.blacklist) ∧
      (∀ s, alookup q.previous_times s =
        mlook (alookup [] s) (alookup [(0, [⟨5, 8⟩, ⟨3, 6⟩])] s)) ∧
      (∀ s, s ∈ akeys q.previous_times ↔
        s ∈ akeys ([] : List (Nat × List Statistics)) ∨
          s ∈ akeys [(0, [(⟨5, 8⟩ : Statistics), ⟨3, 6⟩])]) ∧
      (akeys q.previous_times).Nodup ∧
      recs.length = q.previous_times.length ∧
      (∀ s ts, alookup q.previous_times s = some ts →
        ∃ name, ["f"][s]? = some name ∧
          (⟨name, ts.length, (ts.map Statistics.total).sum,
            (ts.map Statistics.cumulative).sum⟩ :
            FunctionStatistics) ∈ recs) :=
  claim5_get_statistics_flush
    (⟨["f"], [], [], [(0, [⟨5, 8⟩, ⟨3, 6⟩])], [], none⟩ : Profiler)
    (by decide) (by decide) (by decide)

/-- C6.  Calling `get_statistics` twice in succession returns exactly
the same records the second time (and the same state): the first call
moved every live sample, so the second call's flush is a no-op. -/
theorem claim6_flush_idempotent (p : Profiler)
    (recs : List FunctionStatistics) (q : Profiler)
    (h : p.get_statistics = some (recs, q)) :
    q.get_statistics = some (recs, q) := by
  unfold Profiler.get_statistics at h
  rw [Option.map_eq_some'] at h
  obtain ⟨r0, hr0, hpair⟩ := h
  have hr : r0 = recs := congrArg Prod.fst hpair
  have hfp : flushAll p = q := congrArg Prod.snd hpair
  have hqt : q.times = [] := by
    rw [← hfp, flushAll_eq]
  show Option.map (fun recs => (recs, flushAll q))
    (recordsOf (flushAll q).interner (flushAll q).previous_times) =
      some (recs, q)
  rw [flushAll_of_times_nil hqt, ← hfp, hr0, hr]
  rfl

/-- Witness for C6 at the state left by flushing the nested call pair
f → g measured with readings 0, 1, 2, 3. -/
theorem claim6_flush_idempotent_witness :
    (⟨["f", "g"], [1, 0], [], [],
      [(1, [⟨1, 1⟩]), (0, [⟨2, 3⟩])], none⟩ : Profiler).get_statistics =
      some ([⟨"g", 1, 1, 1⟩, ⟨"f", 1, 2, 3⟩],
        (⟨["f", "g"], [1, 0], [], [],
          [(1, [⟨1, 1⟩]), (0, [⟨2, 3⟩])], none⟩ : Profiler)) :=
  claim6_flush_idempotent
    ((((Profiler.new.on_call "f" 0).on_call "g" 1).on_return "g" 2).on_return
      "f" 3)
    [⟨"g", 1, 1, 1⟩, ⟨"f", 1, 2, 3⟩]
    (⟨["f", "g"], [1, 0], [], [],
      [(1, [⟨1, 1⟩]), (0, [⟨2, 3⟩])], none⟩ : Profiler)
    (by decide)

/-! ### Lemmas about the Racing statistics -/

theorem statsOf_cons_eq_some {s : Nat} {vals : List Statistics}
    {rest : List (Nat × List Statistics)}
    {stats : List FunctionAggregateStatistics}
    (h : statsOf ((s, vals) :: rest) = some stats) :
    ∃ mm tail, trimmedOf (vals.map Statistics.cumulative) = some mm ∧
      statsOf rest = some tail ∧
      (⟨s, mm.1, mm.2, mm.1 + (mm.2 - mm.1) / 2⟩ :
        FunctionAggregateStatistics) :: tail = stats := by
  simp only [statsOf, Option.bind_eq_bind, Option.bind_eq_some] at h
  obtain ⟨mm, hmm, tail, htail, hstats⟩ := h
  exact ⟨mm, tail, hmm, htail, Option.some.inj hstats⟩

theorem statsOf_symbols {m : List (Nat × List Statistics)}
    {stats : List FunctionAggregateStatistics}
    (h : statsOf m = some stats) :
    stats.map FunctionAggregateStatistics.symbol = akeys m := by
  induction m generalizing stats with
  | nil =>
    simp [statsOf] at h
    simp [← h, akeys]
  | cons e rest ih =>
    obtain ⟨s, vals⟩ := e
    obtain ⟨mm, tail, hmm, htail, hstats⟩ := statsOf_cons_eq_some h
    rw [← hstats, akeys_cons]
    simp [ih htail]

theorem minByMean_cons_none {x : FunctionAggregateStatistics}
    {t : List FunctionAggregateStatistics} (ht : minByMean t = none) :
    minByMean (x :: t) = some x := by
  simp only [minByMean]
  rw [ht]

theorem minByMean_cons_some {x y : FunctionAggregateStatistics}
    {t : List FunctionAggregateStatistics} (ht : minByMean t = some y) :
    minByMean (x :: t) = some (if x.mean ≤ y.mean then x else y) := by
  simp only [minByMean]
  rw [ht]

theorem minByMean_eq_none {l : List FunctionAggregateStatistics}
    (h : minByMean l = none) : l = [] := by
  cases l with
  | nil => rfl
  | cons x t =>
    exfalso
    cases ht : minByMean t with
    | none => rw [minByMean_cons_none ht] at h; exact Option.noConfusion h
    | some y => rw [minByMean_cons_some ht] at h; exact Option.noConfusion h

theorem minByMean_mem {l : List FunctionAggregateStatistics}
    {f : FunctionAggregateStatistics} (h : minByMean l = some f) :
    f ∈ l := by
  induction l generalizing f with
  | nil => exact Option.noConfusion h
  | cons x t ih =>
    cases ht : minByMean t with
    | none =>
      rw [minByMean_cons_none ht] at h
      exact List.mem_cons.mpr (Or.inl (Option.some.inj h).symm)
    | some y =>
      rw [minByMean_cons_some ht] at h
      have hx := Option.some.inj h
      by_cases hxy : x.mean ≤ y.mean
      · rw [if_pos hxy] at hx
        exact List.mem_cons.mpr (Or.inl hx.symm)
      · rw [if_neg hxy] at hx
        exact List.mem_cons.mpr (Or.inr (hx ▸ ih ht))

theorem minByMean_le {l : List FunctionAggregateStatistics}
    {f : FunctionAggregateStatistics} (h : minByMean l = some f) :
    ∀ g ∈ l, f.mean ≤ g.mean := by
  induction l generalizing f with
  | nil => exact Option.noConfusion h
  | cons x t ih =>
    cases ht : minByMean t with
    | none =>
      rw [minByMean_cons_none ht] at h
      have hx := Option.some.inj h
      intro g hg
      rcases List.mem_cons.mp hg with hg | hg
      · rw [← hx, hg]
      · rw [minByMean_eq_none ht] at hg
        simp at hg
    | some y =>
      rw [minByMean_cons_some ht] at h
      have hx := Option.some.inj h
      intro g hg
      rcases List.mem_cons.mp hg with hg | hg
      · rw [hg]
        by_cases hxy : x.mean ≤ y.mean
        · rw [if_pos hxy] at hx
          rw [← hx]
        · rw [if_neg hxy] at hx
          rw [← hx]
          omega
      · have hyg := ih ht g hg
        by_cases hxy : x.mean ≤ y.mean
        · rw [if_pos hxy] at hx
          rw [← hx]
          exact le_trans hxy hyg
        · rw [if_neg hxy] at hx
          rw [← hx]
          exact hyg

theorem minByMean_isSome {l : List FunctionAggregateStatistics}
    (h : l ≠ []) : ∃ f, minByMean l = some f := by
  cases l with
  | nil => exact absurd rfl h
  | cons x t =>
    simp only [minByMean]
    cases minByMean t with
    | none => exact ⟨x, rfl⟩
    | some y => exact ⟨if x.mean ≤ y.mean then x else y, rfl⟩

theorem racingDecision_nil : racingDecision [] = some [] := rfl

theorem racingDecision_single (e : Nat × List Statistics) :
    racingDecision [e] = some [e.1] := rfl

theorem racingDecision_cons2 (e f : Nat × List Statistics)
    (rest : List (Nat × List Statistics)) :
    racingDecision (e :: f :: rest) =
      (statsOf (e :: f :: rest)).bind (fun stats =>
        (minByMean stats).bind (fun front =>
          some (if stats.all (fun g => g.symbol = front.symbol ||
              decide (front.max < g.min)) then [front.symbol] else []))) :=
  rfl

theorem racingDecision_cases {samples : List (Nat × List Statistics)}
    {ds : List Nat} (h : racingDecision samples = some ds) :
    ds = [] ∨ ∃ d, ds = [d] ∧ d ∈ akeys samples := by
  cases samples with
  | nil =>
    rw [racingDecision_nil] at h
    exact Or.inl (Option.some.inj h).symm
  | cons e rest =>
    cases rest with
    | nil =>
      rw [racingDecision_single] at h
      exact Or.inr ⟨e.1, (Option.some.inj h).symm, by
        obtain ⟨k, l⟩ := e
        rw [akeys_cons]
        exact List.mem_cons_self _ _⟩
    | cons f rest' =>
      rw [racingDecision_cons2] at h
      rw [Option.bind_eq_some] at h
      obtain ⟨stats, hstats, h⟩ := h
      rw [Option.bind_eq_some] at h
      obtain ⟨front, hfront, hds⟩ := h
      have hds' := Option.some.inj hds
      by_cases hsh : stats.all
          (fun g => g.symbol = front.symbol ||
            decide (front.max < g.min)) = true
      · rw [if_pos hsh] at hds'
        refine Or.inr ⟨front.symbol, hds'.symm, ?_⟩
        rw [← statsOf_symbols hstats]
        exact List.mem_map_of_mem _ (minByMean_mem hfront)
      · rw [if_neg hsh] at hds'
        exact Or.inl hds'.symm

/-! ### The trimmed-range computation -/

theorem fmin_le_init (l : List Nat) (a : Nat) :
    l.foldl (fun m v => if v < m then v else m) a ≤ a := by
  induction l generalizing a with
  | nil => exact le_refl a
  | cons x t ih =>
    simp only [List.foldl_cons]
    refine le_trans (ih _) ?_
    by_cases hx : x < a
    · rw [if_pos hx]
      omega
    · rw [if_neg hx]

theorem fmin_le_mem (l : List Nat) (a : Nat) :
    ∀ v ∈ l, l.foldl (fun m v => if v < m then v else m) a ≤ v := by
  induction l generalizing a with
  | nil => intro v hv; simp at hv
  | cons x t ih =>
    intro v hv
    simp only [List.foldl_cons]
    rcases List.mem_cons.mp hv with hv | hv
    · rw [hv]
      refine le_trans (fmin_le_init t _) ?_
      by_cases hx : x < a
      · rw [if_pos hx]
      · rw [if_neg hx]
        omega
    · exact ih _ v hv

theorem fmin_mem_or (l : List Nat) (a : Nat) :
    l.foldl (fun m v => if v < m then v else m) a = a ∨
      l.foldl (fun m v => if v < m then v else m) a ∈ l := by
  induction l generalizing a with
  | nil => exact Or.inl rfl
  | cons x t ih =>
    simp only [List.foldl_cons]
    rcases ih (if x < a then x else a) with h | h
    · by_cases hx : x < a
      · rw [if_pos hx] at h ⊢
        exact Or.inr (by rw [h]; exact List.mem_cons_self _ _)
      · rw [if_neg hx] at h ⊢
        exact Or.inl h
    · exact Or.inr (List.mem_cons_of_mem _ h)

theorem fmax_init_le (l : List Nat) (a : Nat) :
    a ≤ l.foldl (fun m v => if m < v then v else m) a := by
  induction l generalizing a with
  | nil => exact le_refl a
  | cons x t ih =>
    simp only [List.foldl_cons]
    refine le_trans ?_ (ih _)
    by_cases hx : a < x
    · rw [if_pos hx]
      omega
    · rw [if_neg hx]

theorem fmax_mem_le (l : List Nat) (a : Nat) :
    ∀ v ∈ l, v ≤ l.foldl (fun m v => if m < v then v else m) a := by
  induction l generalizing a with
  | nil => intro v hv; simp at hv
  | cons x t ih =>
    intro v hv
    simp only [List.foldl_cons]
    rcases List.mem_cons.mp hv with hv | hv
    · rw [hv]
      refine le_trans ?_ (fmax_init_le t _)
      by_cases hx : a < x
      · rw [if_pos hx]
      · rw [if_neg hx]
        omega
    · exact ih _ v hv

theorem fmax_mem_or (l : List Nat) (a : Nat) :
    l.foldl (fun m v => if m < v then v else m) a = a ∨
      l.foldl (fun m v => if m < v then v else m) a ∈ l := by
  induction l generalizing a with
  | nil => exact Or.inl rfl
  | cons x t ih =>
    simp only [List.foldl_cons]
    rcases ih (if a < x then x else a) with h | h
    · by_cases hx : a < x
      · rw [if_pos hx] at h ⊢
        exact Or.inr (by rw [h]; exact List.mem_cons_self _ _)
      · rw [if_neg hx] at h ⊢
        exact Or.inl h
    · exact Or.inr (List.mem_cons_of_mem _ h)

theorem trim_bounds {n : Nat} (h : 10 ≤ n) :
    n * 5 / 100 < n * 95 / 100 ∧ n * 5 / 100 < n := by
  have h1 : (n * 5 / 100) * 100 ≤ n * 5 := Nat.div_mul_le_self _ _
  have h2 := Nat.div_add_mod (n * 95) 100
  have h3 : (n * 95) % 100 < 100 := Nat.mod_lt _ (by omega)
  omega

theorem trimmedMid_ne_nil {values0 : List Nat}
    (h : 10 ≤ values0.length) : trimmedMid values0 ≠ [] := by
  unfold trimmedMid
  intro hnil
  have hlen : (List.insertionSort (· ≤ ·) values0).length =
      values0.length := (List.perm_insertionSort _ _).length_eq
  rw [← List.length_eq_zero] at hnil
  rw [List.length_take, List.length_drop, hlen] at hnil
  obtain ⟨h1, h2⟩ := trim_bounds (n := values0.length) h
  omega

theorem mem_of_mem_trimmedMid {values0 : List Nat} {v : Nat}
    (h : v ∈ trimmedMid values0) : v ∈ values0 := by
  unfold trimmedMid at h
  exact ((List.perm_insertionSort (· ≤ ·) values0).mem_iff).mp
    (List.mem_of_mem_drop (List.mem_of_mem_take h))

theorem trimmedOf_lt (values0 : List Nat) (v : Nat) (t : List Nat)
    (hv : values0 = v :: t) (hlen : values0.length < 10) :
    trimmedOf values0 = some (v, v) := by
  unfold trimmedOf
  rw [if_pos hlen, hv]

theorem trimmedOf_ge (values0 : List Nat) (hlen : ¬values0.length < 10) :
    trimmedOf values0 =
      some ((trimmedMid values0).foldl
          (fun m v => if v < m then v else m) U128MAX,
        (trimmedMid values0).foldl
          (fun m v => if m < v then v else m) 0) := by
  unfold trimmedOf trimmedMid
  rw [if_neg hlen]

theorem trimmedOf_spec (values0 : List Nat) (hne : values0 ≠ []) :
    ∃ mn mx, trimmedOf values0 = some (mn, mx) ∧ mn ≤ mx ∧
      (values0.length < 10 → values0.head? = some mn ∧ mn = mx) ∧
      (10 ≤ values0.length →
        (∀ v ∈ trimmedMid values0, mn ≤ v ∧ v ≤ mx) ∧
        mx ∈ trimmedMid values0 ∧
        ((∀ v ∈ values0, v < 2 ^ 128) → mn ∈ trimmedMid values0)) := by
  by_cases hlen : values0.length < 10
  · obtain ⟨v, t, hv⟩ : ∃ v t, values0 = v :: t := by
      cases values0 with
      | nil => exact absurd rfl hne
      | cons v t => exact ⟨v, t, rfl⟩
    refine ⟨v, v, trimmedOf_lt values0 v t hv hlen, le_refl v, ?_, ?_⟩
    · intro _
      rw [hv]
      exact ⟨rfl, rfl⟩
    · intro hge
      omega
  · have hge : 10 ≤ values0.length := by omega
    have hmid : trimmedMid values0 ≠ [] := trimmedMid_ne_nil hge
    obtain ⟨w, hw⟩ := List.exists_mem_of_ne_nil _ hmid
    refine ⟨_, _, trimmedOf_ge values0 hlen, ?_, ?_, ?_⟩
    · exact le_trans (fmin_le_mem _ _ w hw) (fmax_mem_le _ _ w hw)
    · intro h10
      omega
    · intro _
      refine ⟨?_, ?_, ?_⟩
      · intro v hv
        exact ⟨fmin_le_mem _ _ v hv, fmax_mem_le _ _ v hv⟩
      · rcases fmax_mem_or (trimmedMid values0) 0 with h0 | h0
        · have hw0 : w ≤ 0 := h0 ▸ fmax_mem_le _ _ w hw
          have : w = 0 := by omega
          rw [h0, ← this]
          exact hw
        · exact h0
      · intro hbound
        rcases fmin_mem_or (trimmedMid values0) U128MAX with h0 | h0
        · have hw0 : U128MAX ≤ w := by
            rw [← h0]
            exact fmin_le_mem _ _ w hw
          have hwb : w < 2 ^ 128 := hbound w (mem_of_mem_trimmedMid hw)
          have : w = U128MAX := by
            unfold U128MAX at hw0 ⊢
            omega
          rw [h0, ← this]
          exact hw
        · exact h0

theorem statsOf_isSome {m : List (Nat × List Statistics)}
    (hne : ∀ e ∈ m, e.2 ≠ ([] : List Statistics)) :
    ∃ stats, statsOf m = some stats := by
  induction m with
  | nil => exact ⟨[], rfl⟩
  | cons e rest ih =>
    obtain ⟨s, vals⟩ := e
    have hv : vals ≠ [] := hne (s, vals) (List.mem_cons_self _ _)
    have hv' : vals.map Statistics.cumulative ≠ [] := by
      simpa using hv
    obtain ⟨mn, mx, hmm, _⟩ := trimmedOf_spec _ hv'
    obtain ⟨tail, htail⟩ := ih (fun e he => hne e (List.mem_cons_of_mem _ he))
    exact ⟨(⟨s, mn, mx, mn + (mx - mn) / 2⟩ :
      FunctionAggregateStatistics) :: tail, by simp [statsOf, hmm, htail]⟩

theorem statsOf_bounds {m : List (Nat × List Statistics)}
    {stats : List FunctionAggregateStatistics}
    (h : statsOf m = some stats)
    (hne : ∀ e ∈ m, e.2 ≠ ([] : List Statistics)) :
    ∀ g ∈ stats, g.min ≤ g.max ∧
      g.mean = g.min + (g.max - g.min) / 2 := by
  induction m generalizing stats with
  | nil =>
    intro g hg
    simp [statsOf] at h
    subst h
    simp at hg
  | cons e rest ih =>
    obtain ⟨s, vals⟩ := e
    obtain ⟨mm, tail, hmm, htail, hstats⟩ := statsOf_cons_eq_some h
    have hv : vals ≠ [] := hne (s, vals) (List.mem_cons_self _ _)
    have hv' : vals.map Statistics.cumulative ≠ [] := by simpa using hv
    obtain ⟨mn, mx, hmm', hle, _⟩ := trimmedOf_spec _ hv'
    rw [hmm'] at hmm
    have hmm2 := Option.some.inj hmm
    intro g hg
    rw [← hstats] at hg
    rcases List.mem_cons.mp hg with hg | hg
    · rw [hg]
      refine ⟨?_, rfl⟩
      rw [← hmm2]
      exact hle
    · exact ih htail (fun e he => hne e (List.mem_cons_of_mem _ he)) g hg

theorem statsOf_mem_entry {m : List (Nat × List Statistics)}
    {stats : List FunctionAggregateStatistics} {s : Nat}
    {vals : List Statistics} (hmem : (s, vals) ∈ m)
    (h : statsOf m = some stats) :
    ∃ g ∈ stats, g.symbol = s ∧
      trimmedOf (vals.map Statistics.cumulative) = some (g.min, g.max) ∧
      g.mean = g.min + (g.max - g.min) / 2 := by
  induction m generalizing stats with
  | nil => simp at hmem
  | cons e rest ih =>
    obtain ⟨k, l⟩ := e
    obtain ⟨mm, tail, hmm, htail, hstats⟩ := statsOf_cons_eq_some h
    rcases List.mem_cons.mp hmem with h' | h'
    · have hk : s = k := congrArg Prod.fst h'
      have hl : vals = l := congrArg Prod.snd h'
      refine ⟨⟨k, mm.1, mm.2, mm.1 + (mm.2 - mm.1) / 2⟩, ?_, hk.symm, ?_, rfl⟩
      · rw [← hstats]
        exact List.mem_cons_self _ _
      · rw [hl]
        exact hmm
    · obtain ⟨g, hg, hrest⟩ := ih h' htail
      exact ⟨g, by rw [← hstats]; exact List.mem_cons_of_mem _ hg, hrest⟩

theorem eq_of_nodup_symbols {stats : List FunctionAggregateStatistics}
    (hnd : (stats.map FunctionAggregateStatistics.symbol).Nodup)
    {f g : FunctionAggregateStatistics} (hf : f ∈ stats) (hg : g ∈ stats)
    (h : f.symbol = g.symbol) : f = g := by
  induction stats with
  | nil => simp at hf
  | cons x t ih =>
    rw [List.map_cons, List.nodup_cons] at hnd
    rcases List.mem_cons.mp hf with hf' | hf' <;>
      rcases List.mem_cons.mp hg with hg' | hg'
    · rw [hf', hg']
    · exfalso
      apply hnd.1
      have hx : x.symbol = g.symbol := by rw [← hf', h]
      rw [hx]
      exact List.mem_map_of_mem _ hg'
    · exfalso
      apply hnd.1
      have hx : x.symbol = f.symbol := by rw [← hg', ← h]
      rw [hx]
      exact List.mem_map_of_mem _ hf'
    · exact ih hnd.2 hf' hg'

/-! ### The reachability invariant -/

theorem inv_new : Inv Profiler.new := by
  refine ⟨?_, ?_, ?_, ?_, ?_, ?_⟩ <;> simp [Profiler.new, akeys]

theorem add_to_blacklist_eq (p : Profiler) (s : Nat) :
    add_to_blacklist p s =
      { p with times := aremove p.times s,
               previous_times :=
                 mergeOne p.previous_times s ((alookup p.times s).getD []),
               blacklist := binsert p.blacklist s } := by
  unfold add_to_blacklist mergeOne
  cases alookup p.previous_times s <;> rfl

theorem akeys_mergeOne_sub {prev : List (Nat × List Statistics)}
    {s : Nat} {l : List Statistics} {t : Nat}
    (h : t ∈ akeys (mergeOne prev s l)) : t ∈ akeys prev ∨ t = s := by
  unfold mergeOne at h
  have hsub : ∀ (x : List Statistics),
      t ∈ akeys (ainsert prev s x) → t ∈ akeys prev ∨ t = s := by
    intro x hx
    rw [akeys_ainsert] at hx
    by_cases hmem : s ∈ akeys prev
    · rw [if_pos hmem] at hx
      exact Or.inl hx
    · rw [if_neg hmem] at hx
      rcases List.mem_append.mp hx with hx | hx
      · exact Or.inl hx
      · exact Or.inr (by simpa using hx)
  cases h' : alookup prev s with
  | none =>
    rw [h'] at h
    exact hsub _ h
  | some old =>
    rw [h'] at h
    exact hsub _ h

theorem mem_mergeOne {prev : List (Nat × List Statistics)} {s : Nat}
    {l : List Statistics} {e : Nat × List Statistics}
    (h : e ∈ mergeOne prev s l) :
    e ∈ prev ∨ (∃ old, alookup prev s = some old ∧ e = (s, old ++ l)) ∨
      (alookup prev s = none ∧ e = (s, l)) := by
  unfold mergeOne at h
  cases h' : alookup prev s with
  | none =>
    rw [h'] at h
    rcases mem_ainsert h with h'' | h''
    · exact Or.inl h''
    · exact Or.inr (Or.inr ⟨rfl, h''⟩)
  | some old =>
    rw [h'] at h
    rcases mem_ainsert h with h'' | h''
    · exact Or.inl h''
    · exact Or.inr (Or.inl ⟨old, rfl, h''⟩)

theorem inv_add_to_blacklist {p : Profiler} {s : Nat} (h : Inv p)
    (hcur : (alookup p.times s).getD [] ≠ [] ∨
      s ∈ akeys p.previous_times) :
    Inv (add_to_blacklist p s) := by
  obtain ⟨hT, hP, hPB, hBT, hTv, hPv⟩ := h
  rw [add_to_blacklist_eq]
  refine ⟨?_, ?_, ?_, ?_, ?_, ?_⟩
  · exact hT.sublist (akeys_aremove_sublist _ _)
  · exact akeys_mergeOne_nodup _ _ hP
  · intro t ht
    rcases akeys_mergeOne_sub ht with ht' | ht'
    · exact mem_binsert_of_mem _ _ (hPB t ht')
    · rw [ht']
      exact mem_binsert_self _ _
  · intro t ht
    rcases mem_binsert ht with ht' | ht'
    · intro hmem
      exact hBT t ht' ((akeys_aremove_sublist _ _).subset hmem)
    · rw [ht']
      exact not_mem_akeys_aremove hT
  · intro e he
    exact hTv e ((aremove_sublist _ _).subset he)
  · intro e he
    rcases mem_mergeOne he with he' | he' | he'
    · exact hPv e he'
    · obtain ⟨old, hold, he''⟩ := he'
      rw [he'']
      have : old ≠ [] := hPv (s, old) (mem_of_alookup_eq_some hold)
      simp [this]
    · obtain ⟨hnone, he''⟩ := he'
      rw [he'']
      rcases hcur with hc | hc
      · exact hc
      · exact absurd (alookup_isSome_of_mem_akeys hc) (by simp [hnone])

theorem inv_of_eq_fields {p q : Profiler} (h : Inv p)
    (ht : q.times = p.times) (hp : q.previous_times = p.previous_times)
    (hb : q.blacklist = p.blacklist) : Inv q := by
  unfold Inv
  rw [ht, hp, hb]
  exact h

theorem inv_on_call (p : Profiler) (n : String) (v : Nat) (h : Inv p) :
    Inv (p.on_call n v) := by
  obtain ⟨h1, h2, h3, _⟩ := on_call_fields p n v
  exact inv_of_eq_fields h h1 h2 h3

theorem inv_on_c_call (p : Profiler) (n : String) (v : Nat) (h : Inv p) :
    Inv (p.on_c_call n v) := by
  obtain ⟨h1, h2, h3⟩ := on_c_call_fields p n v
  exact inv_of_eq_fields h h1 h2 h3

theorem inv_on_return (p : Profiler) (n : String) (v : Nat) (h : Inv p) :
    Inv (p.on_return n v) := by
  by_cases hbl : (internOf p.interner n).2 ∈ p.blacklist
  · rw [on_return_blacklisted p n v hbl]
    exact inv_of_eq_fields h rfl rfl rfl
  · cases hst : p.stack with
    | nil =>
      rw [on_return_empty_stack p n v hbl hst]
      exact inv_of_eq_fields h rfl rfl rfl
    | cons sw rest =>
      rw [on_return_not_blacklisted p n v sw rest hbl hst]
      obtain ⟨hT, hP, hPB, hBT, hTv, hPv⟩ := h
      refine ⟨?_, hP, hPB, ?_, ?_, hPv⟩
      · exact nodup_akeys_ainsert _ _ hT
      · intro t ht hmem
        rw [akeys_ainsert] at hmem
        by_cases hm : (internOf p.interner n).2 ∈ akeys p.times
        · rw [if_pos hm] at hmem
          exact hBT t ht hmem
        · rw [if_neg hm] at hmem
          rcases List.mem_append.mp hmem with hmem | hmem
          · exact hBT t ht hmem
          · have : t = (internOf p.interner n).2 := by simpa using hmem
            rw [this] at ht
            exact hbl ht
      · intro e he
        rcases mem_ainsert he with he' | he'
        · exact hTv e he'
        · rw [he']
          simp

theorem inv_on_c_return {p q : Profiler} {n : String} {v : Nat}
    (h : Inv p) (hs : p.on_c_return n v = some q) : Inv q := by
  unfold Profiler.on_c_return at hs
  by_cases hbl : (internOf p.interner n).2 ∈ p.blacklist
  · rw [if_pos hbl] at hs
    have hq := Option.some.inj hs
    exact inv_of_eq_fields h (by rw [← hq]) (by rw [← hq]) (by rw [← hq])
  · rw [if_neg hbl] at hs
    cases hc : p.c_enter_count with
    | none =>
      rw [hc] at hs
      exact Option.noConfusion hs
    | some enter =>
      rw [hc] at hs
      rw [← Option.some.inj hs, add_to_blacklist_eq]
      obtain ⟨hT, hP, hPB, hBT, hTv, hPv⟩ := h
      have hnotprev : (internOf p.interner n).2 ∉ akeys p.previous_times :=
        fun hmem => hbl (hPB _ hmem)
      have hkeys1 : ∀ t,
          t ∈ akeys (ainsert p.previous_times (internOf p.interner n).2
            [(⟨0, v - enter⟩ : Statistics)]) →
          t ∈ akeys p.previous_times ∨ t = (internOf p.interner n).2 := by
        intro t ht
        rw [akeys_ainsert, if_neg hnotprev] at ht
        rcases List.mem_append.mp ht with ht' | ht'
        · exact Or.inl ht'
        · exact Or.inr (by simpa using ht')
      refine ⟨?_, ?_, ?_, ?_, ?_, ?_⟩
      · exact hT.sublist (akeys_aremove_sublist _ _)
      · exact akeys_mergeOne_nodup _ _ (nodup_akeys_ainsert _ _ hP)
      · intro t ht
        rcases akeys_mergeOne_sub ht with ht' | ht'
        · rcases hkeys1 t ht' with ht'' | ht''
          · exact mem_binsert_of_mem _ _ (hPB t ht'')
          · rw [ht'']
            exact mem_binsert_self _ _
        · rw [ht']
          exact mem_binsert_self _ _
      · intro t ht
        rcases mem_binsert ht with ht' | ht'
        · intro hmem
          exact hBT t ht' ((akeys_aremove_sublist _ _).subset hmem)
        · rw [ht']
          exact not_mem_akeys_aremove hT
      · intro e he
        exact hTv e ((aremove_sublist _ _).subset he)
      · intro e he
        rcases mem_mergeOne he with he' | he' | he'
        · rcases mem_ainsert he' with he'' | he''
          · exact hPv e he''
          · rw [he'']
            simp
        · obtain ⟨old, hold, he''⟩ := he'
          have hold' : old ≠ [] := by
            rcases mem_ainsert (mem_of_alookup_eq_some hold) with hm | hm
            · exact hPv _ hm
            · have : old = [(⟨0, v - enter⟩ : Statistics)] :=
                congrArg Prod.snd hm
              rw [this]
              simp
          rw [he'']
          simp [hold']
        · obtain ⟨hnone, _⟩ := he'
          rw [alookup_ainsert_self] at hnone
          exact Option.noConfusion hnone

theorem inv_update {p q : Profiler} (h : Inv p) (hu : p.update = some q) :
    Inv q := by
  unfold Profiler.update at hu
  rw [Option.map_eq_some'] at hu
  obtain ⟨ds, hds, hq⟩ := hu
  rcases racingDecision_cases hds with hnil | ⟨d, hd, hmem⟩
  · rw [← hq, hnil]
    exact h
  · rw [← hq, hd]
    simp only [List.foldl_cons, List.foldl_nil]
    apply inv_add_to_blacklist h
    left
    obtain ⟨l, hl⟩ := Option.isSome_iff_exists.mp
      (alookup_isSome_of_mem_akeys hmem)
    have : l ≠ [] := h.2.2.2.2.1 (d, l) (mem_of_alookup_eq_some hl)
    simp [hl, this]

theorem inv_flushAll (p : Profiler) (h : Inv p) : Inv (flushAll p) := by
  obtain ⟨hT, hP, hPB, hBT, hTv, hPv⟩ := h
  rw [flushAll_eq]
  refine ⟨?_, ?_, ?_, ?_, ?_, ?_⟩
  · simp [akeys]
  · exact akeys_mergeFold_nodup hP
  · intro t ht
    have h1 := alookup_isSome_of_mem_akeys ht
    rw [show alookup (mergeFold p.previous_times p.times) t =
      mlook (alookup p.previous_times t) (alookup p.times t) from
      alookup_mergeFold _ hT t, mlook_isSome] at h1
    rcases Bool.or_eq_true_iff.mp h1 with h2 | h2
    · obtain ⟨w, hw⟩ := Option.isSome_iff_exists.mp h2
      exact mem_blFold_of_mem _ _ (hPB t (mem_akeys_of_alookup_eq_some hw))
    · obtain ⟨w, hw⟩ := Option.isSome_iff_exists.mp h2
      exact mem_blFold_of_key _ (mem_akeys_of_alookup_eq_some hw)
  · intro t _ hmem
    simp [akeys] at hmem
  · intro e he
    simp at he
  · exact mergeFold_values_ne_nil hPv hTv

theorem inv_step {p q : Profiler} {e : Event} (h : Inv p)
    (hs : step p e = some q) : Inv q := by
  cases e with
  | call n v =>
    rw [← Option.some.inj hs]
    exact inv_on_call p n v h
  | ret n v =>
    rw [← Option.some.inj hs]
    exact inv_on_return p n v h
  | ccall n v =>
    rw [← Option.some.inj hs]
    exact inv_on_c_call p n v h
  | cret n v => exact inv_on_c_return h hs
  | upd => exact inv_update h hs
  | stats =>
    simp only [step] at hs
    rw [Option.map_eq_some'] at hs
    obtain ⟨pair, hpair, hq⟩ := hs
    unfold Profiler.get_statistics at hpair
    rw [Option.map_eq_some'] at hpair
    obtain ⟨recs, _, hpair'⟩ := hpair
    have : flushAll p = q := by
      rw [← hq, ← hpair']
    rw [← this]
    exact inv_flushAll p h

theorem inv_reachable {p : Profiler} (h : Reachable p) : Inv p := by
  induction h with
  | init => exact inv_new
  | next _ hs ih => exact inv_step ih hs

theorem reachable_on_call {p : Profiler} (h : Reachable p) (n : String)
    (v : Nat) : Reachable (p.on_call n v) :=
  Reachable.next h
    (show step p (Event.call n v) = some (p.on_call n v) from rfl)

theorem reachable_on_return {p : Profiler} (h : Reachable p) (n : String)
    (v : Nat) : Reachable (p.on_return n v) :=
  Reachable.next h
    (show step p (Event.ret n v) = some (p.on_return n v) from rfl)

theorem reachable_on_c_call {p : Profiler} (h : Reachable p) (n : String)
    (v : Nat) : Reachable (p.on_c_call n v) :=
  Reachable.next h
    (show step p (Event.ccall n v) = some (p.on_c_call n v) from rfl)

theorem reachable_on_c_return {p q : Profiler} (h : Reachable p)
    (n : String) (v : Nat) (hs : p.on_c_return n v = some q) :
    Reachable q :=
  Reachable.next h (show step p (Event.cret n v) = some q from hs)

/-! ### Claim theorems: invariants -/

/-- C10.  In every state reachable from a fresh profiler by the public
operations, every symbol keyed in the finalized store is in the
blacklist, and no blacklisted symbol is keyed in the live store. -/
theorem claim10_blacklist_invariant (p : Profiler) (h : Reachable p) :
    (∀ s ∈ akeys p.previous_times, s ∈ p.blacklist) ∧
    (∀ s ∈ p.blacklist, s ∉ akeys p.times) :=
  ⟨(inv_reachable h).2.2.1, (inv_reachable h).2.2.2.1⟩

/-- Witness for C10 at the reachable state produced by the native-call
pair NativeCall("h") at reading 5 and NativeReturn("h") at reading 9:
symbol 0 is finalized with one sample and blacklisted. -/
theorem claim10_blacklist_invariant_witness :
    (∀ s ∈ akeys (⟨["h"], [0], [], [], [(0, [⟨0, 4⟩])], none⟩ :
        Profiler).previous_times,
      s ∈ (⟨["h"], [0], [], [], [(0, [⟨0, 4⟩])], none⟩ :
        Profiler).blacklist) ∧
    (∀ s ∈ (⟨["h"], [0], [], [], [(0, [⟨0, 4⟩])], none⟩ :
        Profiler).blacklist,
      s ∉ akeys (⟨["h"], [0], [], [], [(0, [⟨0, 4⟩])], none⟩ :
        Profiler).times) :=
  claim10_blacklist_invariant _
    (reachable_on_c_return (reachable_on_c_call Reachable.init "h" 5)
      "h" 9 (by decide))

/-- C9.  In every collection returned by `get_statistics` from a
reachable state, no record has `num_calls = 0`: every finalized
symbol's sample sequence is non-empty by construction. -/
theorem claim9_num_calls_positive (p : Profiler)
    (recs : List FunctionStatistics) (q : Profiler) (h : Reachable p)
    (hs : p.get_statistics = some (recs, q)) :
    (∀ r ∈ recs, r.num_calls ≠ 0) ∧
    (∀ e ∈ q.previous_times, e.2 ≠ ([] : List Statistics)) := by
  have hinv := inv_reachable h
  unfold Profiler.get_statistics at hs
  rw [Option.map_eq_some'] at hs
  obtain ⟨r0, hr0, hpair⟩ := hs
  have hr : r0 = recs := congrArg Prod.fst hpair
  have hq : flushAll p = q := congrArg Prod.snd hpair
  have hinvq : Inv q := hq ▸ inv_flushAll p hinv
  rw [hr] at hr0
  constructor
  · intro r hrmem
    obtain ⟨e, he, hlen⟩ := recordsOf_num_calls hr0 r hrmem
    have he' : e ∈ q.previous_times := by
      rw [← hq]
      exact he
    have hne : e.2 ≠ [] := hinvq.2.2.2.2.2 e he'
    intro hzero
    rw [hlen] at hzero
    exact hne (List.length_eq_zero.mp hzero)
  · exact hinvq.2.2.2.2.2

/-- Witness for C9 at the reachable state produced by one measured
call pair Call("f") at reading 0 and Return("f") at reading 3: the
returned record has `num_calls = 1`. -/
theorem claim9_num_calls_positive_witness :
    (∀ r ∈ [(⟨"f", 1, 3, 3⟩ : FunctionStatistics)], r.num_calls ≠ 0) ∧
    (∀ e ∈ (⟨["f"], [0], [], [], [(0, [⟨3, 3⟩])], none⟩ :
        Profiler).previous_times,
      e.2 ≠ ([] : List Statistics)) :=
  claim9_num_calls_positive _ _ _
    (reachable_on_return (reachable_on_call Reachable.init "f" 0) "f" 3)
    (by decide)

/-! ### Runs of well-formed Call/Return event sequences (claim C1) -/

theorem on_call_interner (p : Profiler) (n : String) (v : Nat) :
    (p.on_call n v).interner = (internOf p.interner n).1 := by
  by_cases h : (internOf p.interner n).2 ∈ p.blacklist
  · rw [on_call_blacklisted p n v h]
  · rw [on_call_not_blacklisted p n v h]

theorem on_return_interner (p : Profiler) (n : String) (v : Nat) :
    (p.on_return n v).interner = (internOf p.interner n).1 := by
  by_cases h : (internOf p.interner n).2 ∈ p.blacklist
  · rw [on_return_blacklisted p n v h]
  · cases hst : p.stack with
    | nil => rw [on_return_empty_stack p n v h hst]
    | cons sw rest => rw [on_return_not_blacklisted p n v sw rest h hst]

theorem on_return_times_nb (p : Profiler) (n : String) (v : Nat)
    (sw : Stopwatch) (rest : List Stopwatch)
    (hbl : (internOf p.interner n).2 ∉ p.blacklist)
    (hst : p.stack = sw :: rest) :
    (p.on_return n v).times =
      ainsert p.times (internOf p.interner n).2
        ((alookup p.times (internOf p.interner n).2).getD [] ++
          [sw.stop v]) := by
  rw [on_return_not_blacklisted p n v sw rest hbl hst]

theorem on_return_stack_nil (p : Profiler) (n : String) (v : Nat)
    (sw : Stopwatch) (hbl : (internOf p.interner n).2 ∉ p.blacklist)
    (hst : p.stack = [sw]) : (p.on_return n v).stack = [] := by
  rw [on_return_not_blacklisted p n v sw [] hbl hst]

theorem on_return_stack_cons (p : Profiler) (n : String) (v : Nat)
    (sw top : Stopwatch) (r2 : List Stopwatch)
    (hbl : (internOf p.interner n).2 ∉ p.blacklist)
    (hst : p.stack = sw :: top :: r2) :
    (p.on_return n v).stack = top.unpause v :: r2 := by
  rw [on_return_not_blacklisted p n v sw (top :: r2) hbl hst]

theorem applyCR_fields (p : Profiler) (e : CREvent) :
    (applyCR p e).blacklist = p.blacklist ∧
    (applyCR p e).previous_times = p.previous_times ∧
    (applyCR p e).c_enter_count = p.c_enter_count := by
  cases e with
  | call n v =>
    exact ⟨(on_call_fields p n v).2.2.1, (on_call_fields p n v).2.1,
      (on_call_fields p n v).2.2.2⟩
  | ret n v =>
    exact ⟨(on_return_fields p n v).2.1, (on_return_fields p n v).1,
      (on_return_fields p n v).2.2⟩

theorem runCR_fields (p : Profiler) (evs : List CREvent) :
    (runCR p evs).blacklist = p.blacklist ∧
    (runCR p evs).previous_times = p.previous_times ∧
    (runCR p evs).c_enter_count = p.c_enter_count := by
  induction evs generalizing p with
  | nil => exact ⟨rfl, rfl, rfl⟩
  | cons e evs ih =>
    obtain ⟨h1, h2, h3⟩ := ih (applyCR p e)
    obtain ⟨g1, g2, g3⟩ := applyCR_fields p e
    exact ⟨h1.trans g1, h2.trans g2, h3.trans g3⟩

theorem applyCR_interner_extends (p : Profiler) (e : CREvent) :
    ∃ ext, (applyCR p e).interner = p.interner ++ ext := by
  cases e with
  | call n v =>
    rw [show applyCR p (CREvent.call n v) = p.on_call n v from rfl,
      on_call_interner]
    exact internOf_extends p.interner n
  | ret n v =>
    rw [show applyCR p (CREvent.ret n v) = p.on_return n v from rfl,
      on_return_interner]
    exact internOf_extends p.interner n

theorem runCR_interner_extends (p : Profiler) (evs : List CREvent) :
    ∃ ext, (runCR p evs).interner = p.interner ++ ext := by
  induction evs generalizing p with
  | nil => exact ⟨[], (List.append_nil _).symm⟩
  | cons e evs ih =>
    obtain ⟨ext2, h2⟩ := ih (applyCR p e)
    obtain ⟨ext1, h1⟩ := applyCR_interner_extends p e
    refine ⟨ext1 ++ ext2, ?_⟩
    rw [show runCR p (e :: evs) = runCR (applyCR p e) evs from rfl, h2, h1,
      List.append_assoc]

theorem applyCR_times_extends (p : Profiler) (e : CREvent) (sym : Nat) :
    ∃ tail, (alookup (applyCR p e).times sym).getD [] =
      (alookup p.times sym).getD [] ++ tail := by
  cases e with
  | call n v =>
    refine ⟨[], ?_⟩
    rw [show applyCR p (CREvent.call n v) = p.on_call n v from rfl,
      (on_call_fields p n v).1, List.append_nil]
  | ret n v =>
    rw [show applyCR p (CREvent.ret n v) = p.on_return n v from rfl]
    by_cases h : (internOf p.interner n).2 ∈ p.blacklist
    · refine ⟨[], ?_⟩
      rw [on_return_blacklisted p n v h, List.append_nil]
    · cases hst : p.stack with
      | nil =>
        refine ⟨[], ?_⟩
        rw [on_return_empty_stack p n v h hst, List.append_nil]
      | cons sw rest =>
        rw [on_return_not_blacklisted p n v sw rest h hst]
        by_cases hk : (internOf p.interner n).2 = sym
        · refine ⟨[sw.stop v], ?_⟩
          show (alookup (ainsert p.times (internOf p.interner n).2 _)
            sym).getD [] = _
          rw [← hk, alookup_ainsert_self]
          rfl
        · refine ⟨[], ?_⟩
          show (alookup (ainsert p.times (internOf p.interner n).2 _)
            sym).getD [] = _
          rw [alookup_ainsert_ne _ _ _ hk, List.append_nil]

theorem runCR_times_extends (p : Profiler) (evs : List CREvent)
    (sym : Nat) :
    ∃ tail, (alookup (runCR p evs).times sym).getD [] =
      (alookup p.times sym).getD [] ++ tail := by
  induction evs generalizing p with
  | nil => exact ⟨[], (List.append_nil _).symm⟩
  | cons e evs ih =>
    obtain ⟨t2, h2⟩ := ih (applyCR p e)
    obtain ⟨t1, h1⟩ := applyCR_times_extends p e sym
    refine ⟨t1 ++ t2, ?_⟩
    rw [show runCR p (e :: evs) = runCR (applyCR p e) evs from rfl, h2, h1,
      List.append_assoc]

theorem totalSamples_record (m : List (Nat × List Statistics)) (k : Nat)
    (st : Statistics) :
    totalSamples (ainsert m k ((alookup m k).getD [] ++ [st])) =
      totalSamples m + 1 := by
  induction m with
  | nil => simp [ainsert, alookup, totalSamples]
  | cons e t ih =>
    obtain ⟨k', v'⟩ := e
    by_cases hk : k' = k
    · subst hk
      simp only [alookup, if_pos rfl, ainsert, Option.getD_some]
      simp [totalSamples]
      omega
    · simp only [alookup, hk, if_false, ainsert]
      simp only [totalSamples, List.map_cons, List.sum_cons] at ih ⊢
      omega

theorem runF_spec (f : Forest) :
    ∀ p : Profiler, p.blacklist = [] →
      (runCR p (eventsOfF f)).blacklist = [] ∧
      (runCR p (eventsOfF f)).previous_times = p.previous_times ∧
      (runCR p (eventsOfF f)).c_enter_count = p.c_enter_count ∧
      (runCR p (eventsOfF f)).stack =
        (match p.stack with
         | [] => []
         | h :: r => swChildren h f :: r) ∧
      (∀ nd ∈ nodesOfF f, nd.1 ∈ (runCR p (eventsOfF f)).interner) ∧
      totalSamples (runCR p (eventsOfF f)).times =
        totalSamples p.times + sizeF f ∧
      (∀ nd ∈ nodesOfF f, ∃ k,
        idxOf? nd.1 (runCR p (eventsOfF f)).interner = some k ∧
        sampleOf nd.2.1 nd.2.2.1 nd.2.2.2 ∈
          (alookup (runCR p (eventsOfF f)).times k).getD []) := by
  induction f with
  | nil =>
    intro p hbl
    refine ⟨hbl, rfl, rfl, ?_, ?_, ?_, ?_⟩
    · show p.stack = _
      cases p.stack <;> rfl
    · intro nd hnd
      simp [nodesOfF] at hnd
    · show totalSamples p.times = totalSamples p.times + sizeF Forest.nil
      simp [sizeF]
    · intro nd hnd
      simp [nodesOfF] at hnd
  | node n cv ch rv sib IHch IHsib =>
    intro p hbl
    have hnb : (internOf p.interner n).2 ∉ p.blacklist := by
      rw [hbl]
      exact List.not_mem_nil _
    have hp0 := on_call_not_blacklisted p n cv hnb
    have hrun : runCR p (eventsOfF (Forest.node n cv ch rv sib)) =
        runCR ((runCR (p.on_call n cv) (eventsOfF ch)).on_return n rv)
          (eventsOfF sib) := by
      show runCR (p.on_call n cv)
        (eventsOfF ch ++ (CREvent.ret n rv :: eventsOfF sib)) = _
      rw [show runCR (p.on_call n cv)
          (eventsOfF ch ++ (CREvent.ret n rv :: eventsOfF sib)) =
          runCR (runCR (p.on_call n cv) (eventsOfF ch))
            (CREvent.ret n rv :: eventsOfF sib) from
        List.foldl_append _ _ _ _]
      rfl
    obtain ⟨ch_bl, ch_prev, ch_c, ch_stack, ch_names, ch_count, ch_mem⟩ :=
      IHch (p.on_call n cv)
        ((on_call_fields p n cv).2.2.1.trans hbl)
    have h0stack : (p.on_call n cv).stack =
        Stopwatch.new cv ::
          (match p.stack with
           | [] => []
           | top :: rest => top.pause cv :: rest) := by
      rw [hp0]
      cases p.stack <;> rfl
    have h1stack : (runCR (p.on_call n cv) (eventsOfF ch)).stack =
        swChildren (Stopwatch.new cv) ch ::
          (match p.stack with
           | [] => []
           | top :: rest => top.pause cv :: rest) := by
      rw [ch_stack, h0stack]
    have hnmem : n ∈ (runCR (p.on_call n cv) (eventsOfF ch)).interner := by
      obtain ⟨ext, hext⟩ :=
        runCR_interner_extends (p.on_call n cv) (eventsOfF ch)
      rw [hext, on_call_interner]
      exact List.mem_append_left _ (internOf_mem p.interner n)
    obtain ⟨k, hk⟩ := idxOf?_isSome_of_mem hnmem
    have hintern1 :
        internOf (runCR (p.on_call n cv) (eventsOfF ch)).interner n =
          ((runCR (p.on_call n cv) (eventsOfF ch)).interner, k) :=
      internOf_of_idxOf? hk
    have hnb1 :
        (internOf (runCR (p.on_call n cv) (eventsOfF ch)).interner n).2 ∉
          (runCR (p.on_call n cv) (eventsOfF ch)).blacklist := by
      rw [ch_bl]
      exact List.not_mem_nil _
    have h2int :
        ((runCR (p.on_call n cv) (eventsOfF ch)).on_return n rv).interner =
          (runCR (p.on_call n cv) (eventsOfF ch)).interner := by
      rw [on_return_interner, hintern1]
    have h2times :
        ((runCR (p.on_call n cv) (eventsOfF ch)).on_return n rv).times =
          ainsert (runCR (p.on_call n cv) (eventsOfF ch)).times k
            ((alookup (runCR (p.on_call n cv) (eventsOfF ch)).times
                k).getD [] ++
              [(swChildren (Stopwatch.new cv) ch).stop rv]) := by
      rw [on_return_times_nb (runCR (p.on_call n cv) (eventsOfF ch)) n rv
        (swChildren (Stopwatch.new cv) ch)
        (match p.stack with
         | [] => []
         | top :: rest => top.pause cv :: rest) hnb1 h1stack, hintern1]
    have h2bl :
        ((runCR (p.on_call n cv) (eventsOfF ch)).on_return n rv).blacklist =
          [] :=
      (on_return_fields _ n rv).2.1.trans ch_bl
    obtain ⟨sib_bl, sib_prev, sib_c, sib_stack, sib_names, sib_count,
      sib_mem⟩ :=
      IHsib ((runCR (p.on_call n cv) (eventsOfF ch)).on_return n rv) h2bl
    rw [hrun]
    refine ⟨sib_bl, ?_, ?_, ?_, ?_, ?_, ?_⟩
    · rw [sib_prev, (on_return_fields _ n rv).1, ch_prev,
        (on_call_fields p n cv).2.1]
    · rw [sib_c, (on_return_fields _ n rv).2.2, ch_c,
        (on_call_fields p n cv).2.2.2]
    · rw [sib_stack]
      cases hps : p.stack with
      | nil =>
        rw [on_return_stack_nil (runCR (p.on_call n cv) (eventsOfF ch)) n rv
          (swChildren (Stopwatch.new cv) ch) hnb1
          (by rw [h1stack, hps])]
      | cons htop hrest =>
        rw [on_return_stack_cons (runCR (p.on_call n cv) (eventsOfF ch)) n
          rv (swChildren (Stopwatch.new cv) ch) (htop.pause cv) hrest hnb1
          (by rw [h1stack, hps])]
        rfl
    · intro nd hnd
      obtain ⟨ext3, hext3⟩ := runCR_interner_extends
        ((runCR (p.on_call n cv) (eventsOfF ch)).on_return n rv)
        (eventsOfF sib)
      rcases List.mem_cons.mp hnd with hnd' | hnd'
      · rw [hext3, h2int, hnd']
        exact List.mem_append_left _ hnmem
      · rcases List.mem_append.mp hnd' with hnd'' | hnd''
        · rw [hext3, h2int]
          exact List.mem_append_left _ (ch_names nd hnd'')
        · exact sib_names nd hnd''
    · rw [sib_count, h2times, totalSamples_record, ch_count,
        (on_call_fields p n cv).1]
      show totalSamples p.times + sizeF ch + 1 + sizeF sib =
        totalSamples p.times + (1 + sizeF ch + sizeF sib)
      omega
    · intro nd hnd
      obtain ⟨ext3, hext3⟩ := runCR_interner_extends
        ((runCR (p.on_call n cv) (eventsOfF ch)).on_return n rv)
        (eventsOfF sib)
      rcases List.mem_cons.mp hnd with hnd' | hnd'
      · refine ⟨k, ?_, ?_⟩
        · rw [hext3, h2int, hnd']
          exact idxOf?_append_of_some ext3 hk
        · obtain ⟨tail, htail⟩ := runCR_times_extends
            ((runCR (p.on_call n cv) (eventsOfF ch)).on_return n rv)
            (eventsOfF sib) k
          rw [htail]
          apply List.mem_append_left
          rw [h2times, alookup_ainsert_self, Option.getD_some, hnd']
          exact List.mem_append_right _ (List.mem_singleton.mpr rfl)
      · rcases List.mem_append.mp hnd' with hnd'' | hnd''
        · obtain ⟨k', hk', hm'⟩ := ch_mem nd hnd''
          refine ⟨k', ?_, ?_⟩
          · rw [hext3, h2int]
            exact idxOf?_append_of_some ext3 hk'
          · obtain ⟨t1, ht1⟩ := applyCR_times_extends
              (runCR (p.on_call n cv) (eventsOfF ch)) (CREvent.ret n rv) k'
            obtain ⟨t2, ht2⟩ := runCR_times_extends
              ((runCR (p.on_call n cv) (eventsOfF ch)).on_return n rv)
              (eventsOfF sib) k'
            have ht1' : (alookup ((runCR (p.on_call n cv)
                  (eventsOfF ch)).on_return n rv).times k').getD [] =
                (alookup (runCR (p.on_call n cv) (eventsOfF ch)).times
                  k').getD [] ++ t1 := ht1
            rw [ht2, ht1']
            exact List.mem_append_left _ (List.mem_append_left _ hm')
        · exact sib_mem nd hnd''

/-- C1.  Delivering the events of any well-formed forest of N
properly nested Call/Return pairs (with monotonically non-decreasing
counter readings) to a fresh profiler records exactly N samples in the
live store — per frame, the sample determined by its readings is
recorded under its symbol — and for every frame with no child calls
the recorded sample has `total = cumulative`. -/
theorem claim1_stack_discipline (f : Forest)
    (_hmono : List.Chain' (· ≤ ·) (readingsOfF f)) :
    totalSamples (runCR Profiler.new (eventsOfF f)).times = sizeF f ∧
    (∀ nd ∈ nodesOfF f, ∃ k,
      idxOf? nd.1 (runCR Profiler.new (eventsOfF f)).interner = some k ∧
      sampleOf nd.2.1 nd.2.2.1 nd.2.2.2 ∈
        (alookup (runCR Profiler.new (eventsOfF f)).times k).getD []) ∧
    (∀ nd ∈ nodesOfF f, nd.2.2.1 = Forest.nil →
      (sampleOf nd.2.1 nd.2.2.1 nd.2.2.2).total =
        (sampleOf nd.2.1 nd.2.2.1 nd.2.2.2).cumulative) := by
  obtain ⟨_, _, _, _, _, hcount, hmem⟩ := runF_spec f Profiler.new rfl
  refine ⟨?_, hmem, ?_⟩
  · rw [hcount]
    show totalSamples [] + sizeF f = sizeF f
    simp [totalSamples]
  · intro nd hnd hch
    rw [hch]
    show (Stopwatch.stop (Stopwatch.new nd.2.1) nd.2.2.2).total =
      (Stopwatch.stop (Stopwatch.new nd.2.1) nd.2.2.2).cumulative
    simp [Stopwatch.new, Stopwatch.stop]

/-- Witness for C1 on the forest holding the single nested pair
f → g with readings 0, 1, 2, 3: two samples are recorded and the leaf
g's sample has `total = cumulative = 1`. -/
theorem claim1_stack_discipline_witness :
    totalSamples (runCR Profiler.new (eventsOfF
      (Forest.node "f" 0 (Forest.node "g" 1 Forest.nil 2 Forest.nil) 3
        Forest.nil))).times =
      sizeF (Forest.node "f" 0 (Forest.node "g" 1 Forest.nil 2 Forest.nil)
        3 Forest.nil) ∧
    (∀ nd ∈ nodesOfF (Forest.node "f" 0
        (Forest.node "g" 1 Forest.nil 2 Forest.nil) 3 Forest.nil), ∃ k,
      idxOf? nd.1 (runCR Profiler.new (eventsOfF
        (Forest.node "f" 0 (Forest.node "g" 1 Forest.nil 2 Forest.nil) 3
          Forest.nil))).interner = some k ∧
      sampleOf nd.2.1 nd.2.2.1 nd.2.2.2 ∈
        (alookup (runCR Profiler.new (eventsOfF
          (Forest.node "f" 0 (Forest.node "g" 1 Forest.nil 2 Forest.nil)
            3 Forest.nil))).times k).getD []) ∧
    (∀ nd ∈ nodesOfF (Forest.node "f" 0
        (Forest.node "g" 1 Forest.nil 2 Forest.nil) 3 Forest.nil),
      nd.2.2.1 = Forest.nil →
      (sampleOf nd.2.1 nd.2.2.1 nd.2.2.2).total =
        (sampleOf nd.2.1 nd.2.2.1 nd.2.2.2).cumulative) :=
  claim1_stack_discipline
    (Forest.node "f" 0 (Forest.node "g" 1 Forest.nil 2 Forest.nil) 3
      Forest.nil)
    (by simp [readingsOfF, List.chain'_cons])

/-! ### Claim theorems: the Racing algorithm -/

/-- C4.  For every symbol of a snapshot, the Racing update computes
the trimmed range exactly as specified: with fewer than 10 samples,
min and max are both the first available cumulative value; with at
least 10, min and max are taken over the middle 90% that remains of
the sorted cumulative values after the lowest and highest 5% of the
sequence are discarded; in both cases
`mean = min + (max - min) / 2`. -/
theorem claim4_trimmed_range (samples : List (Nat × List Statistics))
    (s : Nat) (vals : List Statistics)
    (stats : List FunctionAggregateStatistics)
    (hmem : (s, vals) ∈ samples) (hne : vals ≠ [])
    (hbound : ∀ st ∈ vals, st.cumulative < 2 ^ 128)
    (hstats : statsOf samples = some stats) :
    ∃ g ∈ stats, g.symbol = s ∧
      g.mean = g.min + (g.max - g.min) / 2 ∧
      (vals.length < 10 →
        (vals.map Statistics.cumulative).head? = some g.min ∧
          g.min = g.max) ∧
      (10 ≤ vals.length →
        g.min ∈ trimmedMid (vals.map Statistics.cumulative) ∧
        g.max ∈ trimmedMid (vals.map Statistics.cumulative) ∧
        ∀ v ∈ trimmedMid (vals.map Statistics.cumulative),
          g.min ≤ v ∧ v ≤ g.max) := by
  obtain ⟨g, hg, hsym, htrim, hmean⟩ := statsOf_mem_entry hmem hstats
  have hv' : vals.map Statistics.cumulative ≠ [] := by simpa using hne
  obtain ⟨mn, mx, htrim', _, hlt, hge⟩ := trimmedOf_spec _ hv'
  rw [htrim'] at htrim
  have hmn : mn = g.min := congrArg Prod.fst (Option.some.inj htrim)
  have hmx : mx = g.max := congrArg Prod.snd (Option.some.inj htrim)
  refine ⟨g, hg, hsym, hmean, ?_, ?_⟩
  · intro hl
    have h1 := hlt (by rw [List.length_map]; exact hl)
    rw [hmn, hmx] at h1
    exact h1
  · intro hl
    have hb : ∀ v ∈ vals.map Statistics.cumulative, v < 2 ^ 128 := by
      intro v hv
      obtain ⟨st, hst, hveq⟩ := List.mem_map.mp hv
      rw [← hveq]
      exact hbound st hst
    obtain ⟨hall, hmaxmem, hminmem⟩ :=
      hge (by rw [List.length_map]; exact hl)
    rw [hmn, hmx] at hall
    rw [hmx] at hmaxmem
    have hminmem' := hminmem hb
    rw [hmn] at hminmem'
    exact ⟨hminmem', hmaxmem, hall⟩

/-- Witness for C4 on the one-sample snapshot `[(0, [(0, 7)])]`: min,
max and mean are all the single cumulative value 7. -/
theorem claim4_trimmed_range_witness :
    ∃ g ∈ [(⟨0, 7, 7, 7⟩ : FunctionAggregateStatistics)], g.symbol = 0 ∧
      g.mean = g.min + (g.max - g.min) / 2 ∧
      ([(⟨0, 7⟩ : Statistics)].length < 10 →
        ([(⟨0, 7⟩ : Statistics)].map Statistics.cumulative).head? =
            some g.min ∧
          g.min = g.max) ∧
      (10 ≤ [(⟨0, 7⟩ : Statistics)].length →
        g.min ∈ trimmedMid ([(⟨0, 7⟩ : Statistics)].map
          Statistics.cumulative) ∧
        g.max ∈ trimmedMid ([(⟨0, 7⟩ : Statistics)].map
          Statistics.cumulative) ∧
        ∀ v ∈ trimmedMid ([(⟨0, 7⟩ : Statistics)].map
          Statistics.cumulative),
          g.min ≤ v ∧ v ≤ g.max) :=
  claim4_trimmed_range [(0, [⟨0, 7⟩])] 0 [⟨0, 7⟩] [⟨0, 7, 7, 7⟩]
    (by decide) (by decide) (by decide) (by decide)

/-- C3.  On a snapshot of the live store the Racing decision
blacklists: nothing when the snapshot is empty; the sole symbol
unconditionally when exactly one symbol is present; otherwise exactly
the frontrunner — the symbol with the smallest mean — when its trimmed
max is strictly below every other symbol's trimmed min, and nothing
when no symbol is separated in this way. -/
theorem claim3_racing_cases (samples : List (Nat × List Statistics))
    (hne : ∀ e ∈ samples, e.2 ≠ ([] : List Statistics))
    (hnd : (akeys samples).Nodup) :
    (samples = [] → racingDecision samples = some []) ∧
    (∀ e, samples = [e] → racingDecision samples = some [e.1]) ∧
    (2 ≤ samples.length → ∃ stats, statsOf samples = some stats ∧
      (∀ f ∈ stats, Separated stats f →
        racingDecision samples = some [f.symbol]) ∧
      ((∀ f ∈ stats, ¬Separated stats f) →
        racingDecision samples = some [])) := by
  refine ⟨?_, ?_, ?_⟩
  · intro h
    rw [h]
    exact racingDecision_nil
  · intro e h
    rw [h]
    exact racingDecision_single e
  · intro hlen2
    obtain ⟨stats, hstats⟩ := statsOf_isSome hne
    obtain ⟨e, f0, rest, hsamp⟩ : ∃ e f0 rest, samples = e :: f0 :: rest := by
      cases samples with
      | nil => simp at hlen2
      | cons e rest' =>
        cases rest' with
        | nil => simp at hlen2
        | cons f0 rest => exact ⟨e, f0, rest, rfl⟩
    have hsym : stats.map FunctionAggregateStatistics.symbol =
        akeys samples := statsOf_symbols hstats
    have hsnd : (stats.map FunctionAggregateStatistics.symbol).Nodup := by
      rw [hsym]
      exact hnd
    have hbounds := statsOf_bounds hstats hne
    have hstats_ne : stats ≠ [] := by
      intro h0
      rw [h0, hsamp] at hsym
      obtain ⟨k, l⟩ := e
      rw [akeys_cons] at hsym
      exact List.noConfusion hsym.symm
    obtain ⟨front, hfront⟩ := minByMean_isSome hstats_ne
    have hfmem := minByMean_mem hfront
    have hfmin := minByMean_le hfront
    have hdec : racingDecision samples =
        some (if stats.all (fun g => g.symbol = front.symbol ||
            decide (front.max < g.min)) then [front.symbol] else []) := by
      rw [hsamp] at hstats ⊢
      rw [racingDecision_cons2, hstats]
      simp only [Option.some_bind]
      rw [hfront]
      simp only [Option.some_bind]
    refine ⟨stats, hstats, ?_, ?_⟩
    · intro f hf hsep
      have hff : front = f := by
        by_cases hfs : front.symbol = f.symbol
        · exact eq_of_nodup_symbols hsnd hfmem hf hfs
        · exfalso
          have h1 : f.max < front.min := hsep.2 front hfmem hfs
          obtain ⟨hfm, hfe⟩ := hbounds f hf
          obtain ⟨hgm, hge⟩ := hbounds front hfmem
          have h2 := hfmin f hf
          omega
      have hall : stats.all (fun g => g.symbol = front.symbol ||
          decide (front.max < g.min)) = true := by
        rw [List.all_eq_true]
        intro g hg
        by_cases hgs : g.symbol = front.symbol
        · simp [hgs]
        · have hlt : front.max < g.min := by
            rw [hff]
            exact hsep.2 g hg (by rw [← hff]; exact hgs)
          simp [hlt]
      rw [hdec, if_pos hall, hff]
    · intro hnosep
      rw [hdec]
      by_cases hall : stats.all (fun g => g.symbol = front.symbol ||
          decide (front.max < g.min)) = true
      · exfalso
        apply hnosep front hfmem
        refine ⟨hfmin, ?_⟩
        intro g hg hgs
        have hgp := List.all_eq_true.mp hall g hg
        simp at hgp
        rcases hgp with h' | h'
        · exact absurd h' hgs
        · exact h'
      · rw [if_neg hall]

/-- Witness for C3 on the two-symbol snapshot with single samples of
cumulative cost 10 and 20: symbol 0 is the separated frontrunner. -/
theorem claim3_racing_cases_witness :
    ([((0 : Nat), [(⟨1, 10⟩ : Statistics)]), (1, [⟨1, 20⟩])] =
        ([] : List (Nat × List Statistics)) →
      racingDecision [(0, [⟨1, 10⟩]), (1, [⟨1, 20⟩])] = some []) ∧
    (∀ e, [((0 : Nat), [(⟨1, 10⟩ : Statistics)]), (1, [⟨1, 20⟩])] = [e] →
      racingDecision [(0, [⟨1, 10⟩]), (1, [⟨1, 20⟩])] = some [e.1]) ∧
    (2 ≤ [((0 : Nat), [(⟨1, 10⟩ : Statistics)]), (1, [⟨1, 20⟩])].length →
      ∃ stats,
        statsOf [(0, [⟨1, 10⟩]), (1, [⟨1, 20⟩])] = some stats ∧
        (∀ f ∈ stats, Separated stats f →
          racingDecision [(0, [⟨1, 10⟩]), (1, [⟨1, 20⟩])] =
            some [f.symbol]) ∧
        ((∀ f ∈ stats, ¬Separated stats f) →
          racingDecision [(0, [⟨1, 10⟩]), (1, [⟨1, 20⟩])] = some [])) :=
  claim3_racing_cases [(0, [⟨1, 10⟩]), (1, [⟨1, 20⟩])]
    (by decide) (by decide)

end AdaptiveProfiler
